import Mathlib

/-!
Shallow embedding of the barabasi_albert_simulation crate (src/models.rs,
src/simulation.rs, src/graph_utils.rs, src/args.rs).

Conventions of the embedding:
stream of draws consumed left to right models the thread rng; a draw r fed to
Uniform::new(0, n) yields r % n, so every stream realises a possible sample
sequence and every sample sequence is realised by some stream.  A Rust panic
and exhaustion of the draw stream are both modelled as the Option value none.
usize is modelled as Nat, with the one underflowing subtraction made explicit
through checkedSub.  Vec bool buffers indexed by node id are modelled as total
functions Nat to Bool (all accesses performed by the program are in bounds),
HashMap with or_default access as total functions with default value.
-/

/-- petgraph UnGraph with unit weights: add_node assigns sequential indices,
so the node set is always range nodeCount; the edge list keeps insertion
order. -/
structure UnGraph where
  nodeCount : Nat
  edges : List (Nat × Nat)
deriving Repr, DecidableEq

/-- graph.add_node, returning the new graph and the index of the new node. -/
def addNode (g : UnGraph) : UnGraph × Nat :=
  ({ g with nodeCount := g.nodeCount + 1 }, g.nodeCount)

/-- graph.add_edge with unit weight. -/
def addEdge (g : UnGraph) (a b : Nat) : UnGraph :=
  { g with edges := g.edges ++ [(a, b)] }

/-- graph.edge_count. -/
def edgeCount (g : UnGraph) : Nat := g.edges.length

/-- graph.edges(v).count() and graph.neighbors(v).count() agree on loop free
graphs: the number of edges incident to v. -/
def degree (g : UnGraph) (v : Nat) : Nat :=
  (g.edges.filter (fun e => e.1 == v || e.2 == v)).length

/-- graph.find_edge(a, b).is_some() for an undirected petgraph graph: an edge
is found in either orientation. -/
def findEdge (g : UnGraph) (a b : Nat) : Bool :=
  g.edges.any (fun e => (e.1 == a && e.2 == b) || (e.1 == b && e.2 == a))

/-- Two undirected edge records describe the same unordered pair. -/
def sameUndirected (e f : Nat × Nat) : Bool :=
  (e.1 == f.1 && e.2 == f.2) || (e.1 == f.2 && e.2 == f.1)

/-- No two records of the edge list describe the same unordered pair. -/
def noDupEdges : List (Nat × Nat) → Bool
  | [] => true
  | e :: rest => rest.all (fun f => !sameUndirected e f) && noDupEdges rest

/-- The graph is simple: no self loop and no multi edge. -/
def isSimple (g : UnGraph) : Bool :=
  g.edges.all (fun e => !(e.1 == e.2)) && noDupEdges g.edges

/-- Edge list of the complete graph: one record per unordered pair. -/
def completeEdges : Nat → List (Nat × Nat)
  | 0 => []
  | n + 1 => completeEdges n ++ (List.range n).map (fun i => (i, n))

/-- petgraph_gen complete_graph n: n nodes, every unordered pair connected. -/
def complete_graph (n : Nat) : UnGraph :=
  { nodeCount := n, edges := completeEdges n }

/-- petgraph_gen star_graph k: node 0 is the center, connected to k leaves. -/
def star_graph (k : Nat) : UnGraph :=
  { nodeCount := k + 1, edges := (List.range k).map (fun i => (0, i + 1)) }

/-- The stub initialisation loop shared by the constructors: every node is
pushed once per incident edge, so a node of degree d appears d times. -/
def initStubs (g : UnGraph) : List Nat :=
  (List.range g.nodeCount).flatMap (fun v => List.replicate (degree g v) v)

inductive GraphType where
  | Complete
  | Star
  | Disconnected
deriving Repr, DecidableEq

/-- models.rs ModelConfig. -/
structure ModelConfig where
  initial_nodes : Nat
  edges_increment : Nat
  end_time : Nat
  starting_graph_type : GraphType
  tracked_timesteps : List Nat
deriving Repr, DecidableEq

/-- The rejection sampling loop shared by the three Step implementations:
draw maps a raw sample to a candidate node, valid is the policy specific
validity check, and candidates whose picked flag is set are rejected, which
keeps the targets of one call pairwise distinct.  Returns the accepted
targets in acceptance order, the updated picked buffer and the unconsumed
part of the draw stream; none when the stream runs out first. -/
def selectTargets (draw : Nat → Nat) (valid : Nat → Bool) :
    (Nat → Bool) → Nat → List Nat → Option (List Nat × (Nat → Bool) × List Nat)
  | picked, need, [] => if need = 0 then some ([], picked, []) else none
  | picked, need, r :: rest =>
    if need = 0 then some ([], picked, r :: rest)
    else
      let target := draw r
      if valid target && !picked target then
        match selectTargets draw valid
            (fun j => if j = target then true else picked j) (need - 1) rest with
        | none => none
        | some (ts, p, rr) => some (target :: ts, p, rr)
      else
        selectTargets draw valid picked need rest

/-- The edge commit loop shared by the Step implementations: connect src to
every selected target, push the stub endpoints given by pushes and clear the
picked flag of each target. -/
def commitTargets (src : Nat) (pushes : Nat → List Nat) (g : UnGraph)
    (stubs : List Nat) (picked : Nat → Bool) (targets : List Nat) :
    UnGraph × List Nat × (Nat → Bool) :=
  targets.foldl
    (fun acc t =>
      (addEdge acc.1 src t, acc.2.1 ++ pushes t,
        fun j => if j = t then false else acc.2.2 j))
    (g, stubs, picked)

/-- The TrackVertices update loop shared by the Classic and RandomAttachement
implementations: for every tracked time step whose value is at most the
current time, push the current degree of the node with that index. -/
def updateVerticesEvolution (tracked : List Nat) (g : UnGraph)
    (ve : Nat → List Nat) (time : Nat) : Nat → List Nat :=
  tracked.foldl
    (fun acc vertex =>
      if time < vertex then acc
      else fun j => if j = vertex then acc vertex ++ [degree g vertex] else acc j)
    ve

/-- The generate loop shared by the three Gen implementations: for time in
1..=end_time, step, stop early when step reports termination, otherwise run
the tracked vertices update at the current time. -/
def genLoop {σ : Type} (stepf : σ → List Nat → Option (Bool × σ × List Nat))
    (updatef : σ → Nat → σ) (s : σ) (time : Nat) (remaining : Nat) (rng : List Nat) :
    Option (σ × List Nat) :=
  match remaining with
  | 0 => some (s, rng)
  | rem + 1 =>
    match stepf s rng with
    | none => none
    | some (b, s1, rng1) =>
      if b then genLoop stepf updatef (updatef s1 time) (time + 1) rem rng1
      else some (s1, rng1)

/-- usize subtraction: defined only when it does not underflow. -/
def checkedSub (a b : Nat) : Option Nat :=
  if b ≤ a then some (a - b) else none

/-- graph_utils.rs Complete::is_complete.  The product
num_nodes * (num_nodes - 1) starts from the usize subtraction
num_nodes - 1, which underflows on the zero node graph. -/
def is_complete (g : UnGraph) : Option Bool :=
  match checkedSub g.nodeCount 1 with
  | none => none
  | some k => some (decide (edgeCount g = g.nodeCount * k / 2))

/-- models.rs BarabasiAlbertClassic.  The targets scratch buffer is not part
of the state here: every step overwrites all of its edges_increment slots
before the commit loop reads them, so it is modelled by the list returned
from the selection loop. -/
structure BarabasiAlbertClassic where
  model_config : ModelConfig
  graph : UnGraph
  stubs : List Nat
  picked : Nat → Bool
  vertices_evolution : Nat → List Nat

namespace BarabasiAlbertClassic

/-- FromModelConfig for BarabasiAlbertClassic.  A Disconnected seed hits the
panic branch; a Star seed with initial_nodes = 0 underflows in
star_graph(initial_nodes - 1). -/
def fromModelConfig (mc : ModelConfig) : Option BarabasiAlbertClassic :=
  match mc.starting_graph_type with
  | .Disconnected => none
  | .Complete =>
    some { model_config := mc
           graph := complete_graph mc.initial_nodes
           stubs := initStubs (complete_graph mc.initial_nodes)
           picked := fun _ => false
           vertices_evolution := fun _ => [] }
  | .Star =>
    if mc.initial_nodes = 0 then none
    else
      some { model_config := mc
             graph := star_graph (mc.initial_nodes - 1)
             stubs := initStubs (star_graph (mc.initial_nodes - 1))
             picked := fun _ => false
             vertices_evolution := fun _ => [] }

/-- Step for BarabasiAlbertClassic: add one node, select edges_increment
distinct targets weighted by the stub pool, connect and push stubs.
Uniform::new(0, stubs.len()) is constructed before the loop and rejects an
empty range, hence the explicit emptiness guard. -/
def step (s : BarabasiAlbertClassic) (rng : List Nat) :
    Option (Bool × BarabasiAlbertClassic × List Nat) :=
  let new_node := s.graph.nodeCount
  let g1 := (addNode s.graph).1
  if s.stubs.length = 0 then none
  else
    match selectTargets (fun r => s.stubs.getD (r % s.stubs.length) 0) (fun _ => true)
        s.picked s.model_config.edges_increment rng with
    | none => none
    | some (targets, p1, rng1) =>
      let c := commitTargets new_node (fun t => [new_node, t]) g1 s.stubs p1 targets
      some (true, { s with graph := c.1, stubs := c.2.1, picked := c.2.2 }, rng1)

/-- TrackVertices::update_vertices_evolution for BarabasiAlbertClassic. -/
def update (s : BarabasiAlbertClassic) (time : Nat) : BarabasiAlbertClassic :=
  { s with
    vertices_evolution :=
      updateVerticesEvolution s.model_config.tracked_timesteps s.graph
        s.vertices_evolution time }

/-- Gen::generate for BarabasiAlbertClassic, returning the generated graph
together with the final model state. -/
def generate (s : BarabasiAlbertClassic) (rng : List Nat) :
    Option (UnGraph × BarabasiAlbertClassic) :=
  (genLoop step update s 1 s.model_config.end_time rng).map (fun p => (p.1.graph, p.1))

/-- TrackVertices::get_vertex_evolution: clone of the stored trajectory, the
empty list when none was recorded. -/
def get_vertex_evolution (s : BarabasiAlbertClassic) (vertex_id : Nat) : List Nat :=
  s.vertices_evolution vertex_id

end BarabasiAlbertClassic

/-- models.rs BarabasiAlbertRandomAttachement. -/
structure BarabasiAlbertRandomAttachement where
  model_config : ModelConfig
  graph : UnGraph
  node_count : Nat
  picked : Nat → Bool
  vertices_evolution : Nat → List Nat

namespace BarabasiAlbertRandomAttachement

/-- FromModelConfig for BarabasiAlbertRandomAttachement. -/
def fromModelConfig (mc : ModelConfig) : Option BarabasiAlbertRandomAttachement :=
  match mc.starting_graph_type with
  | .Disconnected => none
  | .Complete =>
    some { model_config := mc
           graph := complete_graph mc.initial_nodes
           node_count := mc.initial_nodes
           picked := fun _ => false
           vertices_evolution := fun _ => [] }
  | .Star =>
    if mc.initial_nodes = 0 then none
    else
      some { model_config := mc
             graph := star_graph (mc.initial_nodes - 1)
             node_count := mc.initial_nodes
             picked := fun _ => false
             vertices_evolution := fun _ => [] }

/-- Step for BarabasiAlbertRandomAttachement: add one node, select
edges_increment distinct targets uniformly over the existing node ids
tracked by node_count, connect them, then increment node_count. -/
def step (s : BarabasiAlbertRandomAttachement) (rng : List Nat) :
    Option (Bool × BarabasiAlbertRandomAttachement × List Nat) :=
  let new_node := s.graph.nodeCount
  let g1 := (addNode s.graph).1
  if s.node_count = 0 then none
  else
    match selectTargets (fun r => r % s.node_count) (fun _ => true)
        s.picked s.model_config.edges_increment rng with
    | none => none
    | some (targets, p1, rng1) =>
      let c := commitTargets new_node (fun _ => []) g1 [] p1 targets
      some (true,
        { s with graph := c.1, picked := c.2.2, node_count := s.node_count + 1 }, rng1)

/-- TrackVertices::update_vertices_evolution for
BarabasiAlbertRandomAttachement. -/
def update (s : BarabasiAlbertRandomAttachement) (time : Nat) :
    BarabasiAlbertRandomAttachement :=
  { s with
    vertices_evolution :=
      updateVerticesEvolution s.model_config.tracked_timesteps s.graph
        s.vertices_evolution time }

/-- Gen::generate for BarabasiAlbertRandomAttachement. -/
def generate (s : BarabasiAlbertRandomAttachement) (rng : List Nat) :
    Option (UnGraph × BarabasiAlbertRandomAttachement) :=
  (genLoop step update s 1 s.model_config.end_time rng).map (fun p => (p.1.graph, p.1))

end BarabasiAlbertRandomAttachement

/-- models.rs BarabasiAlbertNoGrowth.  The initial_uniform field over
0..initial_nodes is reconstructed at each use site from the config. -/
structure BarabasiAlbertNoGrowth where
  model_config : ModelConfig
  graph : UnGraph
  stubs : List Nat
  picked : Nat → Bool
  tracked_vertices : List Nat
  vertices_evolution : Nat → List Nat
  current_time_step : Nat

namespace BarabasiAlbertNoGrowth

/-- FromModelConfig for BarabasiAlbertNoGrowth.  With initial_nodes = 0 the
constructor fails: Uniform::new(0, 0) rejects the empty range, and a Star
seed additionally underflows in star_graph(initial_nodes - 1).  A
Disconnected seed adds initial_nodes isolated nodes and pushes each of them
once onto the stub list. -/
def fromModelConfig (mc : ModelConfig) : Option BarabasiAlbertNoGrowth :=
  if mc.initial_nodes = 0 then none
  else
    let graph : UnGraph :=
      match mc.starting_graph_type with
      | .Complete => complete_graph mc.initial_nodes
      | .Star => star_graph (mc.initial_nodes - 1)
      | .Disconnected => { nodeCount := mc.initial_nodes, edges := [] }
    let stubs : List Nat :=
      match mc.starting_graph_type with
      | .Disconnected => List.range mc.initial_nodes
      | _ => initStubs graph
    some { model_config := mc
           graph := graph
           stubs := stubs
           picked := fun _ => false
           tracked_vertices := []
           vertices_evolution := fun _ => []
           current_time_step := 0 }

/-- Step for BarabasiAlbertNoGrowth: stop on a complete graph; otherwise draw
one source node uniformly over the fixed node set, register it with the
tracker when the current time step is tracked, select edges_increment
distinct targets from the stub pool that are neither the source nor already
adjacent to it, then commit the edges.  The source registers the tracked
source before the selection loop; the registration is written inside the
success record here, which is the same value since the selection loop never
reads tracked_vertices. -/
def step (s : BarabasiAlbertNoGrowth) (rng : List Nat) :
    Option (Bool × BarabasiAlbertNoGrowth × List Nat) :=
  match is_complete s.graph with
  | none => none
  | some true => some (false, s, rng)
  | some false =>
    if s.stubs.length = 0 then none
    else
      match rng with
      | [] => none
      | r0 :: rng1 =>
        let random_node := r0 % s.model_config.initial_nodes
        match selectTargets (fun r => s.stubs.getD (r % s.stubs.length) 0)
            (fun t => !(t == random_node) && !findEdge s.graph random_node t)
            s.picked s.model_config.edges_increment rng1 with
        | none => none
        | some (targets, p1, rng2) =>
          let c := commitTargets random_node (fun t => [t, random_node])
            s.graph s.stubs p1 targets
          let s1 := { s with
            graph := c.1
            stubs := c.2.1
            picked := c.2.2
            tracked_vertices :=
              if s.model_config.tracked_timesteps.contains s.current_time_step
              then s.tracked_vertices ++ [random_node]
              else s.tracked_vertices }
          some (true, s1, rng2)

/-- TrackVertices::update_vertices_evolution for BarabasiAlbertNoGrowth:
push the current degree of every vertex of tracked_vertices, ignoring the
time argument. -/
def update (s : BarabasiAlbertNoGrowth) (_time : Nat) : BarabasiAlbertNoGrowth :=
  { s with
    vertices_evolution :=
      s.tracked_vertices.foldl
        (fun acc vertex =>
          fun j => if j = vertex then acc vertex ++ [degree s.graph vertex] else acc j)
        s.vertices_evolution }

/-- Gen::generate for BarabasiAlbertNoGrowth. -/
def generate (s : BarabasiAlbertNoGrowth) (rng : List Nat) :
    Option (UnGraph × BarabasiAlbertNoGrowth) :=
  (genLoop step update s 1 s.model_config.end_time rng).map (fun p => (p.1.graph, p.1))

end BarabasiAlbertNoGrowth

/-- simulation.rs Simulation in the Over phase.  The Start phase value only
carries iteration_number, so the two transition functions below take it
directly. -/
structure SimulationOver where
  iteration_number : Nat
  degree_sequence : Option (List Nat)
  vertices_evolution : Option (List (Nat × List Nat))
deriving Repr, DecidableEq

/-- Simulation::mean_vectors.  The two assert calls, empty input and length
mismatch, are modelled as none.  The source computes the entry as
(sum as f64 / num_vectors as f64).ceil() as usize; the f64 round trip is
exact for sums below 2^53 and the entry is modelled as the exact ceiling of
sum over num_vectors, here (sum + k - 1) / k in Nat arithmetic. -/
def mean_vectors (vectors : List (List Nat)) : Option (List Nat) :=
  if vectors.isEmpty then none
  else
    let num_vectors := vectors.length
    let vector_length := (vectors.headD []).length
    if vectors.all (fun v => v.length == vector_length) then
      some ((List.range vector_length).map (fun i =>
        ((vectors.map (fun v => v.getD i 0)).sum + num_vectors - 1) / num_vectors))
    else none

/-- The trial loop of Simulation::simulate: trial k abstracts the body
FromModelConfig::from_model_config followed by generate and
degree_sequence() of iteration k for the generic model parameter G, with
none for a trial whose draw stream is exhausted. -/
def runTrials (trial : Nat → Option (List Nat)) : Nat → Option (List (List Nat))
  | 0 => some []
  | k + 1 =>
    match runTrials trial k, trial k with
    | some seqs, some s => some (seqs ++ [s])
    | _, _ => none

namespace Simulation

/-- Simulation::simulate: run the trials, average the degree sequences and
enter the Over phase with vertices_evolution set to None. -/
def simulate (iteration_number : Nat) (trial : Nat → Option (List Nat)) :
    Option SimulationOver :=
  match runTrials trial iteration_number with
  | none => none
  | some seqs =>
    match mean_vectors seqs with
    | none => none
    | some mean =>
      some { iteration_number := iteration_number
             degree_sequence := some mean
             vertices_evolution := none }

/-- The trial loop of Simulation::simulate_with_tracking: a trial yields the
degree sequence together with the get_vertex_evolution view of the model. -/
def runTrialsT (trial : Nat → Option (List Nat × (Nat → List Nat))) :
    Nat → Option (List (List Nat × (Nat → List Nat)))
  | 0 => some []
  | k + 1 =>
    match runTrialsT trial k, trial k with
    | some rs, some r => some (rs ++ [r])
    | _, _ => none

/-- Averaging of the per vertex evolutions collected across the trials, one
entry per tracked vertex id. -/
def meanEvolutions (results : List (List Nat × (Nat → List Nat))) :
    List Nat → Option (List (Nat × List Nat))
  | [] => some []
  | vid :: rest =>
    match mean_vectors (results.map (fun r => r.2 vid)), meanEvolutions results rest with
    | some m, some l => some ((vid, m) :: l)
    | _, _ => none

/-- Simulation::simulate_with_tracking: run the trials, average the degree
sequences and the tracked evolutions, and enter the Over phase with both
fields set. -/
def simulate_with_tracking (iteration_number : Nat)
    (trial : Nat → Option (List Nat × (Nat → List Nat))) (tracked : List Nat) :
    Option SimulationOver :=
  match runTrialsT trial iteration_number with
  | none => none
  | some results =>
    match mean_vectors (results.map (fun r => r.1)) with
    | none => none
    | some mean =>
      match meanEvolutions results tracked with
      | none => none
      | some ve =>
        some { iteration_number := iteration_number
               degree_sequence := some mean
               vertices_evolution := some ve }

/-- Simulation of the Over phase, get_mean_degree_sequence: none models the
unreachable panic branch taken when degree_sequence is None. -/
def get_mean_degree_sequence (s : SimulationOver) : Option (List Nat) :=
  s.degree_sequence

/-- Simulation of the Over phase, get_vertex_evolution: none models the
unreachable panic branch taken when vertices_evolution is None. -/
def get_vertex_evolution (s : SimulationOver) : Option (List (Nat × List Nat)) :=
  s.vertices_evolution

end Simulation

/-- args.rs Args after clap parsing, restricted to the fields read by
ModelConfig::from_args. -/
structure Args where
  n : Nat
  m : Nat
  t_max : Nat
  starting_graph : GraphType
deriving Repr, DecidableEq

/-- models.rs ModelConfig::from_args; each assert is modelled as none when
its condition fails.  The first assert checks args.n >= 1 although its own
message demands a number greater than 1. -/
def ModelConfig.from_args (args : Args) (tracked_timesteps : List Nat) :
    Option ModelConfig :=
  if 1 ≤ args.n then
    if args.m ≤ args.n then
      if 1 ≤ args.m then
        some { initial_nodes := args.n
               edges_increment := args.m
               end_time := args.t_max
               starting_graph_type := args.starting_graph
               tracked_timesteps := tracked_timesteps }
      else none
    else none
  else none

/-- args.rs validate_n on an already parsed number: accepted when at least 2. -/
def validate_n (n : Nat) : Option Nat :=
  if 2 ≤ n then some n else none

/-- args.rs validate_m on an already parsed number: accepted when at least 1. -/
def validate_m (m : Nat) : Option Nat :=
  if 1 ≤ m then some m else none

/-! Basic facts about the graph embedding. -/

/-- Edge records are loop free and both endpoints are existing nodes. -/
def EdgesWF (g : UnGraph) : Prop :=
  ∀ e ∈ g.edges, e.1 ≠ e.2 ∧ e.1 < g.nodeCount ∧ e.2 < g.nodeCount

theorem edgeCount_addEdge (g : UnGraph) (a b : Nat) :
    edgeCount (addEdge g a b) = edgeCount g + 1 := by
  simp [edgeCount, addEdge]

theorem degree_append_mono (g g2 : UnGraph) (l : List (Nat × Nat)) (v : Nat)
    (h : g2.edges = g.edges ++ l) : degree g v ≤ degree g2 v := by
  simp only [degree, h, List.filter_append, List.length_append]
  omega

theorem sum_map_add (f g : Nat → Nat) (xs : List Nat) :
    (xs.map (fun v => f v + g v)).sum = (xs.map f).sum + (xs.map g).sum := by
  induction xs with
  | nil => simp
  | cons x xs ih => simp [ih]; omega

theorem sum_indicator_range (a n : Nat) :
    ((List.range n).map (fun v => if a == v then 1 else 0)).sum
      = if a < n then 1 else 0 := by
  induction n with
  | zero => simp
  | succ n ih =>
    rw [List.range_succ, List.map_append, List.sum_append, ih]
    by_cases h : a = n
    · subst h
      simp
    · have hbeq : (a == n) = false := by simp [h]
      by_cases h2 : a < n
      · have : a < n + 1 := by omega
        simp [hbeq, h2, this, h]
      · have : ¬ a < n + 1 := by omega
        simp [hbeq, h2, this, h]

theorem pair_indicator_sum (a b n : Nat) (hab : a ≠ b) (ha : a < n) (hb : b < n) :
    ((List.range n).map (fun v => if a == v || b == v then 1 else 0)).sum = 2 := by
  have hsplit : ∀ v : Nat,
      (if a == v || b == v then (1 : Nat) else 0)
        = (if a == v then 1 else 0) + (if b == v then 1 else 0) := by
    intro v
    by_cases h1 : a = v <;> by_cases h2 : b = v <;> simp_all
  calc ((List.range n).map (fun v => if a == v || b == v then 1 else 0)).sum
      = ((List.range n).map
          (fun v => (if a == v then 1 else 0) + (if b == v then 1 else 0))).sum := by
        exact congrArg _ (List.map_congr_left (fun v _ => hsplit v))
    _ = 2 := by
        rw [sum_map_add (fun v => if a == v then 1 else 0)
          (fun v => if b == v then 1 else 0), sum_indicator_range, sum_indicator_range]
        simp [ha, hb]

/-- Double counting of edge endpoints: on a loop free graph whose endpoints
are in range, the degrees over all nodes sum to twice the edge count. -/
theorem handshake (n : Nat) (l : List (Nat × Nat))
    (h : ∀ e ∈ l, e.1 ≠ e.2 ∧ e.1 < n ∧ e.2 < n) :
    ((List.range n).map
      (fun v => (l.filter (fun e => e.1 == v || e.2 == v)).length)).sum = 2 * l.length := by
  induction l with
  | nil => simp
  | cons e l ih =>
    have hmem := h e (by simp)
    have hstep : ∀ v : Nat,
        ((e :: l).filter (fun f => f.1 == v || f.2 == v)).length
          = (if e.1 == v || e.2 == v then 1 else 0)
            + (l.filter (fun f => f.1 == v || f.2 == v)).length := by
      intro v
      by_cases hc : (e.1 == v || e.2 == v) = true
      · simp [List.filter_cons, hc]
        omega
      · simp [List.filter_cons, hc]
    calc ((List.range n).map
          (fun v => ((e :: l).filter (fun f => f.1 == v || f.2 == v)).length)).sum
        = ((List.range n).map (fun v =>
            (if e.1 == v || e.2 == v then 1 else 0)
              + (l.filter (fun f => f.1 == v || f.2 == v)).length)).sum := by
          exact congrArg _ (List.map_congr_left (fun v _ => hstep v))
      _ = 2 + 2 * l.length := by
          rw [sum_map_add (fun v => if e.1 == v || e.2 == v then 1 else 0)
            (fun v => (l.filter (fun f => f.1 == v || f.2 == v)).length),
            pair_indicator_sum e.1 e.2 n hmem.1 hmem.2.1 hmem.2.2,
            ih (fun f hf => h f (by simp [hf]))]
      _ = 2 * (e :: l).length := by simp; omega

theorem initStubs_length (g : UnGraph) (h : EdgesWF g) :
    (initStubs g).length = 2 * edgeCount g := by
  rw [initStubs, List.length_flatMap]
  have : ∀ v : Nat, (List.replicate (degree g v) v).length = degree g v := by
    intro v; simp
  calc ((List.range g.nodeCount).map
        (fun v => (List.replicate (degree g v) v).length)).sum
      = ((List.range g.nodeCount).map (fun v => degree g v)).sum := by
        exact congrArg _ (List.map_congr_left (fun v _ => this v))
    _ = 2 * edgeCount g := handshake g.nodeCount g.edges h

theorem initStubs_mem (g : UnGraph) (x : Nat) (hx : x ∈ initStubs g) :
    x < g.nodeCount := by
  rw [initStubs, List.mem_flatMap] at hx
  obtain ⟨v, hv, hxv⟩ := hx
  rw [List.eq_of_mem_replicate hxv]
  exact List.mem_range.1 hv

/-! Well formedness and simplicity of the seed graphs. -/

theorem noDupEdges_iff (l : List (Nat × Nat)) :
    noDupEdges l = true ↔ l.Pairwise (fun e f => sameUndirected e f = false) := by
  induction l with
  | nil => simp [noDupEdges]
  | cons e rest ih =>
    simp only [noDupEdges, Bool.and_eq_true, List.all_eq_true, List.pairwise_cons, ih]
    constructor
    · rintro ⟨h1, h2⟩
      exact ⟨fun f hf => by simpa using h1 f hf, h2⟩
    · rintro ⟨h1, h2⟩
      exact ⟨fun f hf => by simpa using h1 f hf, h2⟩

theorem isSimple_iff (g : UnGraph) :
    isSimple g = true ↔ (∀ e ∈ g.edges, e.1 ≠ e.2)
      ∧ g.edges.Pairwise (fun e f => sameUndirected e f = false) := by
  simp only [isSimple, Bool.and_eq_true, List.all_eq_true, noDupEdges_iff]
  constructor
  · rintro ⟨h1, h2⟩
    exact ⟨fun e he => by simpa using h1 e he, h2⟩
  · rintro ⟨h1, h2⟩
    exact ⟨fun e he => by simpa using h1 e he, h2⟩

theorem completeEdges_mem (n : Nat) :
    ∀ e ∈ completeEdges n, e.1 < e.2 ∧ e.2 < n := by
  induction n with
  | zero => simp [completeEdges]
  | succ n ih =>
    intro e he
    rw [completeEdges, List.mem_append] at he
    rcases he with he | he
    · have := ih e he
      omega
    · rw [List.mem_map] at he
      obtain ⟨i, hi, rfl⟩ := he
      have := List.mem_range.1 hi
      simp
      omega

theorem complete_graph_wf (n : Nat) : EdgesWF (complete_graph n) := by
  intro e he
  have := completeEdges_mem n e he
  simp only [complete_graph]
  omega

theorem complete_graph_pairwise (n : Nat) :
    (completeEdges n).Pairwise (fun e f => sameUndirected e f = false) := by
  induction n with
  | zero => simp [completeEdges]
  | succ n ih =>
    rw [completeEdges, List.pairwise_append]
    refine ⟨ih, ?_, ?_⟩
    · rw [List.pairwise_map]
      have hlt := List.pairwise_lt_range n
      refine hlt.imp_of_mem ?_
      intro i j hi hj hij
      have hin := List.mem_range.1 hi
      have hjn := List.mem_range.1 hj
      simp [sameUndirected]
      omega
    · intro e he f hf
      have h1 := completeEdges_mem n e he
      rw [List.mem_map] at hf
      obtain ⟨i, hi, rfl⟩ := hf
      simp [sameUndirected]
      omega

theorem complete_graph_simple (n : Nat) : isSimple (complete_graph n) = true := by
  rw [isSimple_iff]
  refine ⟨?_, complete_graph_pairwise n⟩
  intro e he
  have := completeEdges_mem n e he
  omega

theorem star_graph_wf (k : Nat) : EdgesWF (star_graph k) := by
  intro e he
  rw [star_graph, List.mem_map] at he
  obtain ⟨i, hi, rfl⟩ := he
  have := List.mem_range.1 hi
  refine ⟨by simp, ?_, ?_⟩
  · show 0 < k + 1
    omega
  · show i + 1 < k + 1
    omega

theorem star_graph_simple (k : Nat) : isSimple (star_graph k) = true := by
  rw [isSimple_iff]
  constructor
  · intro e he
    rw [star_graph, List.mem_map] at he
    obtain ⟨i, hi, rfl⟩ := he
    simp
  · show ((List.range k).map (fun i => ((0 : Nat), i + 1))).Pairwise
      (fun e f => sameUndirected e f = false)
    rw [List.pairwise_map]
    have hlt := List.pairwise_lt_range k
    refine hlt.imp_of_mem ?_
    intro i j hi hj hij
    simp [sameUndirected]
    omega

/-! Specification of the rejection sampling loop and of the commit loop. -/

theorem selectTargets_spec (draw : Nat → Nat) (valid : Nat → Bool) :
    ∀ (rng : List Nat) (picked : Nat → Bool) (need : Nat) ts p rr,
      selectTargets draw valid picked need rng = some (ts, p, rr) →
      ts.length = need ∧ ts.Nodup ∧
      (∀ t ∈ ts, valid t = true ∧ picked t = false ∧ ∃ r, t = draw r) ∧
      (∀ j, p j = true ↔ (picked j = true ∨ j ∈ ts)) := by
  intro rng
  induction rng with
  | nil =>
    intro picked need ts p rr h
    by_cases h0 : need = 0
    · subst h0
      simp only [selectTargets, if_pos rfl, Option.some.injEq] at h
      obtain ⟨rfl, rfl, rfl⟩ := h
      simp
    · simp only [selectTargets, if_neg h0] at h
      exact absurd h (by simp)
  | cons r rest ih =>
    intro picked need ts p rr h
    by_cases h0 : need = 0
    · subst h0
      simp only [selectTargets, if_pos rfl, Option.some.injEq] at h
      obtain ⟨rfl, rfl, rfl⟩ := h
      simp
    · simp only [selectTargets, if_neg h0] at h
      by_cases hc : (valid (draw r) && !picked (draw r)) = true
      · rw [if_pos hc] at h
        rcases hacc : selectTargets draw valid
            (fun j => if j = draw r then true else picked j) (need - 1) rest with
          _ | ⟨ts1, p1, rr1⟩
        · rw [hacc] at h
          simp at h
        · rw [hacc] at h
          simp only [Option.some.injEq] at h
          obtain ⟨rfl, rfl, rfl⟩ := h
          obtain ⟨hlen, hnd, hmem, hp⟩ := ih _ _ _ _ _ hacc
          have hcond := hc
          rw [Bool.and_eq_true, Bool.not_eq_eq_eq_not, Bool.not_true] at hcond
          have hmem1 : ∀ t ∈ ts1, t ≠ draw r ∧ picked t = false := by
            intro t ht
            have := (hmem t ht).2.1
            by_cases he : t = draw r
            · rw [he] at this
              simp at this
            · rw [if_neg he] at this
              exact ⟨he, this⟩
          refine ⟨by simp [hlen]; omega, ?_, ?_, ?_⟩
          · rw [List.nodup_cons]
            exact ⟨fun hin => ((hmem1 _ hin).1 rfl).elim, hnd⟩
          · intro t ht
            rcases List.mem_cons.1 ht with rfl | ht1
            · exact ⟨hcond.1, hcond.2, r, rfl⟩
            · refine ⟨(hmem t ht1).1, (hmem1 t ht1).2, (hmem t ht1).2.2⟩
          · intro j
            rw [hp j]
            by_cases he : j = draw r
            · subst he
              simp
            · rw [if_neg he]
              simp only [List.mem_cons]
              constructor
              · rintro (h1 | h1)
                · exact Or.inl h1
                · exact Or.inr (Or.inr h1)
              · rintro (h1 | h1 | h1)
                · exact Or.inl h1
                · exact (he h1).elim
                · exact Or.inr h1
      · rw [if_neg hc] at h
        exact ih _ _ _ _ _ h

theorem commitTargets_spec (src : Nat) (pushes : Nat → List Nat) :
    ∀ (targets : List Nat) (g : UnGraph) (stubs : List Nat) (picked : Nat → Bool),
      (commitTargets src pushes g stubs picked targets).1.nodeCount = g.nodeCount ∧
      (commitTargets src pushes g stubs picked targets).1.edges
        = g.edges ++ targets.map (fun t => (src, t)) ∧
      (commitTargets src pushes g stubs picked targets).2.1
        = stubs ++ targets.flatMap pushes ∧
      (∀ j, (commitTargets src pushes g stubs picked targets).2.2 j
        = if j ∈ targets then false else picked j) := by
  intro targets
  induction targets with
  | nil => intro g stubs picked; simp [commitTargets]
  | cons t ts ih =>
    intro g stubs picked
    have hstep : commitTargets src pushes g stubs picked (t :: ts)
        = commitTargets src pushes (addEdge g src t) (stubs ++ pushes t)
            (fun j => if j = t then false else picked j) ts := by
      simp [commitTargets]
    rw [hstep]
    obtain ⟨h1, h2, h3, h4⟩ := ih (addEdge g src t) (stubs ++ pushes t)
      (fun j => if j = t then false else picked j)
    refine ⟨by rw [h1]; rfl, ?_, ?_, ?_⟩
    · rw [h2]
      simp [addEdge]
    · rw [h3]
      simp
    · intro j
      rw [h4 j]
      by_cases hj : j ∈ ts
      · simp [hj]
      · by_cases hjt : j = t
        · subst hjt
          simp [hj]
        · simp [hj, hjt]

/-! Effect of one step, for each policy. -/

theorem classic_step_spec {s : BarabasiAlbertClassic} {rng : List Nat} {b : Bool}
    {s1 : BarabasiAlbertClassic} {rr : List Nat}
    (h : s.step rng = some (b, s1, rr)) :
    b = true ∧ s1.model_config = s.model_config ∧
    s1.vertices_evolution = s.vertices_evolution ∧
    s1.graph.nodeCount = s.graph.nodeCount + 1 ∧
    ∃ ts : List Nat,
      ts.length = s.model_config.edges_increment ∧ ts.Nodup ∧
      (∀ t ∈ ts, t ∈ s.stubs) ∧
      s1.graph.edges = s.graph.edges ++ ts.map (fun t => (s.graph.nodeCount, t)) ∧
      s1.stubs = s.stubs ++ ts.flatMap (fun t => [s.graph.nodeCount, t]) ∧
      ((∀ j, s.picked j = false) → ∀ j, s1.picked j = false) := by
  rw [BarabasiAlbertClassic.step] at h
  by_cases hz : s.stubs.length = 0
  · rw [if_pos hz] at h
    exact absurd h (by simp)
  · rw [if_neg hz] at h
    rcases hsel : selectTargets (fun r => s.stubs.getD (r % s.stubs.length) 0)
        (fun _ => true) s.picked s.model_config.edges_increment rng with
      _ | ⟨ts, p1, rng1⟩
    · rw [hsel] at h
      exact absurd h (by simp)
    · rw [hsel] at h
      simp only [Option.some.injEq, Prod.mk.injEq] at h
      obtain ⟨hb, hs1, hrr⟩ := h
      obtain ⟨hlen, hnd, hmem, hp⟩ := selectTargets_spec _ _ rng s.picked
        s.model_config.edges_increment ts p1 rng1 hsel
      obtain ⟨hc1, hc2, hc3, hc4⟩ := commitTargets_spec s.graph.nodeCount
        (fun t => [s.graph.nodeCount, t]) ts (addNode s.graph).1 s.stubs p1
      subst hb
      subst hrr
      refine ⟨rfl, ?_, ?_, ?_, ts, hlen, hnd, ?_, ?_, ?_, ?_⟩
      · rw [← hs1]
      · rw [← hs1]
      · rw [← hs1]
        show (commitTargets _ _ _ _ _ ts).1.nodeCount = s.graph.nodeCount + 1
        rw [hc1]
        rfl
      · intro t ht
        obtain ⟨-, -, r, rfl⟩ := hmem t ht
        have hlt : r % s.stubs.length < s.stubs.length := Nat.mod_lt _ (by omega)
        rw [List.getD_eq_getElem s.stubs 0 hlt]
        exact List.getElem_mem hlt
      · rw [← hs1]
        show (commitTargets _ _ _ _ _ ts).1.edges = _
        rw [hc2]
        rfl
      · rw [← hs1]
        show (commitTargets _ _ _ _ _ ts).2.1 = _
        rw [hc3]
      · intro hpicked j
        rw [← hs1]
        show (commitTargets _ _ _ _ _ ts).2.2 j = false
        rw [hc4 j]
        by_cases hj : j ∈ ts
        · simp [hj]
        · rw [if_neg hj]
          rcases hb1 : p1 j with _ | _
          · rfl
          · have := (hp j).1 hb1
            rcases this with h1 | h1
            · rw [hpicked j] at h1
              exact absurd h1 (by simp)
            · exact absurd h1 hj

theorem ra_step_spec {s : BarabasiAlbertRandomAttachement} {rng : List Nat} {b : Bool}
    {s1 : BarabasiAlbertRandomAttachement} {rr : List Nat}
    (h : s.step rng = some (b, s1, rr)) :
    b = true ∧ s1.model_config = s.model_config ∧
    s1.vertices_evolution = s.vertices_evolution ∧
    s1.graph.nodeCount = s.graph.nodeCount + 1 ∧
    s1.node_count = s.node_count + 1 ∧
    ∃ ts : List Nat,
      ts.length = s.model_config.edges_increment ∧ ts.Nodup ∧
      (∀ t ∈ ts, t < s.node_count) ∧
      s1.graph.edges = s.graph.edges ++ ts.map (fun t => (s.graph.nodeCount, t)) ∧
      ((∀ j, s.picked j = false) → ∀ j, s1.picked j = false) := by
  rw [BarabasiAlbertRandomAttachement.step] at h
  by_cases hz : s.node_count = 0
  · rw [if_pos hz] at h
    exact absurd h (by simp)
  · rw [if_neg hz] at h
    rcases hsel : selectTargets (fun r => r % s.node_count)
        (fun _ => true) s.picked s.model_config.edges_increment rng with
      _ | ⟨ts, p1, rng1⟩
    · rw [hsel] at h
      exact absurd h (by simp)
    · rw [hsel] at h
      simp only [Option.some.injEq, Prod.mk.injEq] at h
      obtain ⟨hb, hs1, hrr⟩ := h
      obtain ⟨hlen, hnd, hmem, hp⟩ := selectTargets_spec _ _ rng s.picked
        s.model_config.edges_increment ts p1 rng1 hsel
      obtain ⟨hc1, hc2, hc3, hc4⟩ := commitTargets_spec s.graph.nodeCount
        (fun _ => ([] : List Nat)) ts (addNode s.graph).1 [] p1
      subst hb
      subst hrr
      refine ⟨rfl, ?_, ?_, ?_, ?_, ts, hlen, hnd, ?_, ?_, ?_⟩
      · rw [← hs1]
      · rw [← hs1]
      · rw [← hs1]
        show (commitTargets _ _ _ _ _ ts).1.nodeCount = s.graph.nodeCount + 1
        rw [hc1]
        rfl
      · rw [← hs1]
      · intro t ht
        obtain ⟨-, -, r, rfl⟩ := hmem t ht
        exact Nat.mod_lt _ (by omega)
      · rw [← hs1]
        show (commitTargets _ _ _ _ _ ts).1.edges = _
        rw [hc2]
        rfl
      · intro hpicked j
        rw [← hs1]
        show (commitTargets _ _ _ _ _ ts).2.2 j = false
        rw [hc4 j]
        by_cases hj : j ∈ ts
        · simp [hj]
        · rw [if_neg hj]
          rcases hb1 : p1 j with _ | _
          · rfl
          · have := (hp j).1 hb1
            rcases this with h1 | h1
            · rw [hpicked j] at h1
              exact absurd h1 (by simp)
            · exact absurd h1 hj

/-- Shared facts about the selection plus commit phase of a NoGrowth step. -/
theorem ng_commit_facts {s : BarabasiAlbertNoGrowth} {r0 : Nat} {rng1 rng2 : List Nat}
    {ts : List Nat} {p1 : Nat → Bool}
    (hz : ¬ s.stubs.length = 0)
    (hsel : selectTargets (fun r => s.stubs.getD (r % s.stubs.length) 0)
        (fun t => !(t == r0 % s.model_config.initial_nodes)
          && !findEdge s.graph (r0 % s.model_config.initial_nodes) t)
        s.picked s.model_config.edges_increment rng1 = some (ts, p1, rng2)) :
    ts.length = s.model_config.edges_increment ∧ ts.Nodup ∧
    (∀ t ∈ ts, t ∈ s.stubs ∧ t ≠ r0 % s.model_config.initial_nodes ∧
      findEdge s.graph (r0 % s.model_config.initial_nodes) t = false) ∧
    (commitTargets (r0 % s.model_config.initial_nodes)
        (fun t => [t, r0 % s.model_config.initial_nodes])
        s.graph s.stubs p1 ts).1.nodeCount = s.graph.nodeCount ∧
    (commitTargets (r0 % s.model_config.initial_nodes)
        (fun t => [t, r0 % s.model_config.initial_nodes])
        s.graph s.stubs p1 ts).1.edges
      = s.graph.edges ++ ts.map (fun t => (r0 % s.model_config.initial_nodes, t)) ∧
    (commitTargets (r0 % s.model_config.initial_nodes)
        (fun t => [t, r0 % s.model_config.initial_nodes])
        s.graph s.stubs p1 ts).2.1
      = s.stubs ++ ts.flatMap (fun t => [t, r0 % s.model_config.initial_nodes]) ∧
    ((∀ j, s.picked j = false) →
      ∀ j, (commitTargets (r0 % s.model_config.initial_nodes)
        (fun t => [t, r0 % s.model_config.initial_nodes])
        s.graph s.stubs p1 ts).2.2 j = false) := by
  obtain ⟨hlen, hnd, hmem, hp⟩ := selectTargets_spec _ _ rng1 s.picked
    s.model_config.edges_increment ts p1 rng2 hsel
  obtain ⟨hc1, hc2, hc3, hc4⟩ := commitTargets_spec
    (r0 % s.model_config.initial_nodes)
    (fun t => [t, r0 % s.model_config.initial_nodes]) ts s.graph s.stubs p1
  refine ⟨hlen, hnd, ?_, hc1, hc2, hc3, ?_⟩
  · intro t ht
    obtain ⟨hv, -, r, rfl⟩ := hmem t ht
    simp only [Bool.and_eq_true, Bool.not_eq_true', beq_eq_false_iff_ne] at hv
    have hlt : r % s.stubs.length < s.stubs.length := Nat.mod_lt _ (by omega)
    refine ⟨?_, hv.1, hv.2⟩
    rw [List.getD_eq_getElem s.stubs 0 hlt]
    exact List.getElem_mem hlt
  · intro hpicked j
    rw [hc4 j]
    by_cases hj : j ∈ ts
    · simp [hj]
    · rw [if_neg hj]
      rcases hb1 : p1 j with _ | _
      · rfl
      · have := (hp j).1 hb1
        rcases this with h1 | h1
        · rw [hpicked j] at h1
          exact absurd h1 (by simp)
        · exact absurd h1 hj

theorem ng_step_spec {s : BarabasiAlbertNoGrowth} {rng : List Nat} {b : Bool}
    {s1 : BarabasiAlbertNoGrowth} {rr : List Nat}
    (h : s.step rng = some (b, s1, rr)) :
    (b = false ∧ s1 = s ∧ rr = rng ∧ is_complete s.graph = some true) ∨
    (b = true ∧ is_complete s.graph = some false ∧
      s1.model_config = s.model_config ∧
      s1.graph.nodeCount = s.graph.nodeCount ∧
      s1.vertices_evolution = s.vertices_evolution ∧
      s1.current_time_step = s.current_time_step ∧
      ∃ (rn : Nat) (ts : List Nat),
        (0 < s.model_config.initial_nodes → rn < s.model_config.initial_nodes) ∧
        ts.length = s.model_config.edges_increment ∧ ts.Nodup ∧
        (∀ t ∈ ts, t ∈ s.stubs ∧ t ≠ rn ∧ findEdge s.graph rn t = false) ∧
        s1.graph.edges = s.graph.edges ++ ts.map (fun t => (rn, t)) ∧
        s1.stubs = s.stubs ++ ts.flatMap (fun t => [t, rn]) ∧
        s1.tracked_vertices
          = (if s.model_config.tracked_timesteps.contains s.current_time_step
             then s.tracked_vertices ++ [rn] else s.tracked_vertices) ∧
        ((∀ j, s.picked j = false) → ∀ j, s1.picked j = false)) := by
  rw [BarabasiAlbertNoGrowth.step.eq_def] at h
  split at h
  next hcom =>
    exact absurd h (by simp)
  next hcom =>
    left
    simp only [Option.some.injEq, Prod.mk.injEq] at h
    obtain ⟨hb, hs1, hrr⟩ := h
    exact ⟨hb.symm, hs1.symm, hrr.symm, hcom⟩
  next hcom =>
    right
    split at h
    next hz =>
      exact absurd h (by simp)
    next hz =>
      split at h
      next =>
        exact absurd h (by simp)
      next r0 rng1 =>
        split at h
        next htr =>
          dsimp only [] at h
          split at h
          next hsel =>
            exact absurd h (by simp)
          next ts p1 rng2 hsel =>
            simp only [Option.some.injEq, Prod.mk.injEq] at h
            obtain ⟨hb, hs1, hrr⟩ := h
            obtain ⟨hlen, hnd, hmem, hnc, hed, hst, hpk⟩ := ng_commit_facts hz hsel
            subst hb
            subst hrr
            refine ⟨rfl, hcom, ?_, ?_, ?_, ?_,
              r0 % s.model_config.initial_nodes, ts,
              (fun hpos => Nat.mod_lt _ hpos), hlen, hnd, hmem, ?_, ?_, ?_, ?_⟩
            · rw [← hs1]
            · rw [← hs1]
              exact hnc
            · rw [← hs1]
            · rw [← hs1]
            · rw [← hs1]
              exact hed
            · rw [← hs1]
              exact hst
            · rw [← hs1]
              show s.tracked_vertices ++ [r0 % s.model_config.initial_nodes] = _
              rw [if_pos htr]
            · intro hpicked j
              rw [← hs1]
              exact hpk hpicked j
        next htr =>
          dsimp only [] at h
          split at h
          next hsel =>
            exact absurd h (by simp)
          next ts p1 rng2 hsel =>
            simp only [Option.some.injEq, Prod.mk.injEq] at h
            obtain ⟨hb, hs1, hrr⟩ := h
            obtain ⟨hlen, hnd, hmem, hnc, hed, hst, hpk⟩ := ng_commit_facts hz hsel
            subst hb
            subst hrr
            refine ⟨rfl, hcom, ?_, ?_, ?_, ?_,
              r0 % s.model_config.initial_nodes, ts,
              (fun hpos => Nat.mod_lt _ hpos), hlen, hnd, hmem, ?_, ?_, ?_, ?_⟩
            · rw [← hs1]
            · rw [← hs1]
              exact hnc
            · rw [← hs1]
            · rw [← hs1]
            · rw [← hs1]
              exact hed
            · rw [← hs1]
              exact hst
            · rw [← hs1]
              show s.tracked_vertices = _
              rw [if_neg htr]
            · intro hpicked j
              rw [← hs1]
              exact hpk hpicked j

/-! The generate loop: invariant preservation and time indexed invariants. -/

theorem genLoop_inv {σ : Type} {stepf : σ → List Nat → Option (Bool × σ × List Nat)}
    {updatef : σ → Nat → σ} (I : σ → Prop)
    (hstep : ∀ s rng b s1 rr, I s → stepf s rng = some (b, s1, rr) → I s1)
    (hupd : ∀ s t, I s → I (updatef s t)) :
    ∀ (rem : Nat) (s : σ) (time : Nat) (rng : List Nat) (s1 : σ) (rr : List Nat),
      I s → genLoop stepf updatef s time rem rng = some (s1, rr) → I s1 := by
  intro rem
  induction rem with
  | zero =>
    intro s time rng s1 rr hI h
    simp only [genLoop, Option.some.injEq, Prod.mk.injEq] at h
    obtain ⟨rfl, rfl⟩ := h
    exact hI
  | succ rem ih =>
    intro s time rng s1 rr hI h
    rw [genLoop] at h
    rcases hst : stepf s rng with _ | ⟨b, s2, rng1⟩
    · rw [hst] at h
      exact absurd h (by simp)
    · rw [hst] at h
      dsimp only [] at h
      have hI2 : I s2 := hstep s rng b s2 rng1 hI hst
      rcases b with _ | _
      · rw [if_neg Bool.false_ne_true] at h
        simp only [Option.some.injEq, Prod.mk.injEq] at h
        obtain ⟨rfl, rfl⟩ := h
        exact hI2
      · rw [if_pos rfl] at h
        exact ih (updatef s2 time) (time + 1) rng1 s1 rr (hupd s2 time hI2) h

theorem genLoop_inv_time {σ : Type} {stepf : σ → List Nat → Option (Bool × σ × List Nat)}
    {updatef : σ → Nat → σ} (I : σ → Nat → Prop)
    (hstep : ∀ s time rng b s1 rr, I s time → stepf s rng = some (b, s1, rr) →
      b = true ∧ I (updatef s1 time) (time + 1)) :
    ∀ (rem : Nat) (s : σ) (time : Nat) (rng : List Nat) (s1 : σ) (rr : List Nat),
      I s time → genLoop stepf updatef s time rem rng = some (s1, rr) →
      I s1 (time + rem) := by
  intro rem
  induction rem with
  | zero =>
    intro s time rng s1 rr hI h
    simp only [genLoop, Option.some.injEq, Prod.mk.injEq] at h
    obtain ⟨rfl, rfl⟩ := h
    exact hI
  | succ rem ih =>
    intro s time rng s1 rr hI h
    rw [genLoop] at h
    rcases hst : stepf s rng with _ | ⟨b, s2, rng1⟩
    · rw [hst] at h
      exact absurd h (by simp)
    · rw [hst] at h
      dsimp only [] at h
      obtain ⟨rfl, hI2⟩ := hstep s time rng b s2 rng1 hI hst
      simp only [if_pos rfl] at h
      have := ih (updatef s2 time) (time + 1) rng1 s1 rr hI2 h
      have harith : time + 1 + rem = time + (rem + 1) := by omega
      rw [harith] at this
      exact this

/-! Constructor facts, one lemma per policy. -/

theorem classic_from_spec {mc : ModelConfig} {s0 : BarabasiAlbertClassic}
    (h : BarabasiAlbertClassic.fromModelConfig mc = some s0) :
    s0.model_config = mc ∧
    s0.graph.nodeCount = mc.initial_nodes ∧
    isSimple s0.graph = true ∧ EdgesWF s0.graph ∧
    (∀ j, s0.picked j = false) ∧
    s0.vertices_evolution = (fun _ => []) ∧
    s0.stubs.length = 2 * edgeCount s0.graph ∧
    (∀ x ∈ s0.stubs, x < s0.graph.nodeCount) := by
  rw [BarabasiAlbertClassic.fromModelConfig.eq_def] at h
  rcases hty : mc.starting_graph_type with _ | _ | _ <;> rw [hty] at h
  · simp only [Option.some.injEq] at h
    subst h
    refine ⟨rfl, rfl, complete_graph_simple _, complete_graph_wf _, fun j => rfl, rfl,
      initStubs_length _ (complete_graph_wf _), fun x hx => initStubs_mem _ x hx⟩
  · by_cases hz : mc.initial_nodes = 0
    · rw [if_pos hz] at h
      exact absurd h (by simp)
    · rw [if_neg hz] at h
      simp only [Option.some.injEq] at h
      subst h
      refine ⟨rfl, ?_, star_graph_simple _, star_graph_wf _, fun j => rfl, rfl,
        initStubs_length _ (star_graph_wf _), fun x hx => initStubs_mem _ x hx⟩
      show mc.initial_nodes - 1 + 1 = mc.initial_nodes
      omega
  · exact absurd h (by simp)

theorem ra_from_spec {mc : ModelConfig} {s0 : BarabasiAlbertRandomAttachement}
    (h : BarabasiAlbertRandomAttachement.fromModelConfig mc = some s0) :
    s0.model_config = mc ∧
    s0.graph.nodeCount = mc.initial_nodes ∧
    s0.node_count = mc.initial_nodes ∧
    isSimple s0.graph = true ∧ EdgesWF s0.graph ∧
    (∀ j, s0.picked j = false) ∧
    s0.vertices_evolution = (fun _ => []) := by
  rw [BarabasiAlbertRandomAttachement.fromModelConfig.eq_def] at h
  rcases hty : mc.starting_graph_type with _ | _ | _ <;> rw [hty] at h
  · simp only [Option.some.injEq] at h
    subst h
    exact ⟨rfl, rfl, rfl, complete_graph_simple _, complete_graph_wf _, fun j => rfl, rfl⟩
  · by_cases hz : mc.initial_nodes = 0
    · rw [if_pos hz] at h
      exact absurd h (by simp)
    · rw [if_neg hz] at h
      simp only [Option.some.injEq] at h
      subst h
      refine ⟨rfl, ?_, rfl, star_graph_simple _, star_graph_wf _, fun j => rfl, rfl⟩
      show mc.initial_nodes - 1 + 1 = mc.initial_nodes
      omega
  · exact absurd h (by simp)

theorem ng_from_spec {mc : ModelConfig} {s0 : BarabasiAlbertNoGrowth}
    (h : BarabasiAlbertNoGrowth.fromModelConfig mc = some s0) :
    s0.model_config = mc ∧
    0 < mc.initial_nodes ∧
    s0.graph.nodeCount = mc.initial_nodes ∧
    isSimple s0.graph = true ∧ EdgesWF s0.graph ∧
    (∀ j, s0.picked j = false) ∧
    s0.tracked_vertices = [] ∧
    s0.vertices_evolution = (fun _ => []) ∧
    s0.current_time_step = 0 ∧
    (∀ x ∈ s0.stubs, x < s0.graph.nodeCount) ∧
    s0.stubs.length = 2 * edgeCount s0.graph
      + (match mc.starting_graph_type with
         | GraphType.Disconnected => mc.initial_nodes
         | _ => 0) := by
  rw [BarabasiAlbertNoGrowth.fromModelConfig.eq_def] at h
  by_cases hz : mc.initial_nodes = 0
  · rw [if_pos hz] at h
    exact absurd h (by simp)
  · rw [if_neg hz] at h
    rcases hty : mc.starting_graph_type with _ | _ | _ <;> rw [hty] at h <;>
      simp only [Option.some.injEq] at h <;> subst h
    · refine ⟨rfl, by omega, rfl, complete_graph_simple _, complete_graph_wf _,
        fun j => rfl, rfl, rfl, rfl, fun x hx => initStubs_mem _ x hx, ?_⟩
      show (initStubs (complete_graph mc.initial_nodes)).length
        = 2 * edgeCount (complete_graph mc.initial_nodes) + 0
      rw [initStubs_length _ (complete_graph_wf _)]
      omega
    · refine ⟨rfl, by omega, ?_, star_graph_simple _, star_graph_wf _,
        fun j => rfl, rfl, rfl, rfl, fun x hx => initStubs_mem _ x hx, ?_⟩
      · show mc.initial_nodes - 1 + 1 = mc.initial_nodes
        omega
      · show (initStubs (star_graph (mc.initial_nodes - 1))).length
          = 2 * edgeCount (star_graph (mc.initial_nodes - 1)) + 0
        rw [initStubs_length _ (star_graph_wf _)]
        omega
    · refine ⟨rfl, by omega, rfl, by simp [isSimple, noDupEdges], ?_,
        fun j => rfl, rfl, rfl, rfl, ?_, ?_⟩
      · intro e he
        exact absurd he (by simp)
      · intro x hx
        exact List.mem_range.1 hx
      · simp [edgeCount]

/-! The TrackVertices update functions leave everything but the recorded
evolutions unchanged. -/

theorem classic_update_fields (s : BarabasiAlbertClassic) (t : Nat) :
    (s.update t).graph = s.graph ∧ (s.update t).stubs = s.stubs ∧
    (s.update t).picked = s.picked ∧ (s.update t).model_config = s.model_config :=
  ⟨rfl, rfl, rfl, rfl⟩

theorem ra_update_fields (s : BarabasiAlbertRandomAttachement) (t : Nat) :
    (s.update t).graph = s.graph ∧ (s.update t).node_count = s.node_count ∧
    (s.update t).picked = s.picked ∧ (s.update t).model_config = s.model_config :=
  ⟨rfl, rfl, rfl, rfl⟩

theorem ng_update_fields (s : BarabasiAlbertNoGrowth) (t : Nat) :
    (s.update t).graph = s.graph ∧ (s.update t).stubs = s.stubs ∧
    (s.update t).picked = s.picked ∧ (s.update t).model_config = s.model_config ∧
    (s.update t).tracked_vertices = s.tracked_vertices ∧
    (s.update t).current_time_step = s.current_time_step :=
  ⟨rfl, rfl, rfl, rfl, rfl, rfl⟩

theorem updateVE_apply (g : UnGraph) (time j : Nat) :
    ∀ (tracked : List Nat) (ve : Nat → List Nat),
      updateVerticesEvolution tracked g ve time j
        = ve j ++ List.replicate
            ((tracked.filter (fun v => v == j && decide (v ≤ time))).length)
            (degree g j) := by
  intro tracked
  induction tracked with
  | nil =>
    intro ve
    simp [updateVerticesEvolution]
  | cons v rest ih =>
    intro ve
    by_cases hv : time < v
    · have hstep : updateVerticesEvolution (v :: rest) g ve time
          = updateVerticesEvolution rest g ve time := by
        simp [updateVerticesEvolution, List.foldl_cons, if_pos hv]
      have hc : ((fun v => v == j && decide (v ≤ time)) v) = false := by
        have hle : ¬ v ≤ time := by omega
        simp [hle]
      have hfil : (v :: rest).filter (fun v => v == j && decide (v ≤ time))
          = rest.filter (fun v => v == j && decide (v ≤ time)) := by
        rw [List.filter_cons]
        simp [hc]
      rw [hstep, ih, hfil]
    · have hstep : updateVerticesEvolution (v :: rest) g ve time
          = updateVerticesEvolution rest g
              (fun k => if k = v then ve v ++ [degree g v] else ve k) time := by
        simp [updateVerticesEvolution, List.foldl_cons, if_neg hv]
      rw [hstep, ih]
      by_cases hj : j = v
      · subst hj
        have hc : ((fun v => v == j && decide (v ≤ time)) j) = true := by
          have hle : j ≤ time := by omega
          simp [hle]
        have hfil : ((j :: rest).filter (fun v => v == j && decide (v ≤ time)))
            = j :: rest.filter (fun v => v == j && decide (v ≤ time)) := by
          rw [List.filter_cons, if_pos hc]
        rw [hfil]
        show (if j = j then ve j ++ [degree g j] else ve j)
            ++ List.replicate (rest.filter (fun v => v == j && decide (v ≤ time))).length
              (degree g j) = _
        rw [if_pos rfl, List.length_cons, List.append_assoc, List.replicate_succ]
        rfl
      · have hc : ((fun v => v == j && decide (v ≤ time)) v) = false := by
          have hne : ¬ v = j := fun hcq => hj hcq.symm
          simp [hne]
        have hfil : (v :: rest).filter (fun v => v == j && decide (v ≤ time))
            = rest.filter (fun v => v == j && decide (v ≤ time)) := by
          rw [List.filter_cons]
          simp [hc]
        rw [hfil]
        show (if j = v then ve v ++ [degree g v] else ve j) ++ _ = _
        rw [if_neg hj]

theorem count_filter_le_time (tracked : List Nat) (time : Nat) (ht : 1 ≤ time) :
    (tracked.filter (fun v => v == 1 && decide (v ≤ time))).length
      = tracked.count 1 := by
  rw [List.count, List.countP_eq_length_filter]
  congr 1
  apply List.filter_congr
  intro v _
  by_cases hv : v = 1
  · subst hv
    simp
    omega
  · simp [hv]

/-! Chain facts used for the monotone trajectory claim. -/

theorem chain_le_replace_last (l : List Nat) (a b : Nat)
    (h : List.Chain' (· ≤ ·) (l ++ [a])) (hab : a ≤ b) :
    List.Chain' (· ≤ ·) (l ++ [b]) := by
  rw [List.chain'_append] at h ⊢
  obtain ⟨h1, h2, h3⟩ := h
  refine ⟨h1, List.chain'_singleton b, ?_⟩
  intro x hx y hy
  simp only [List.head?_cons, Option.mem_def, Option.some.injEq] at hy
  subst hy
  have := h3 x hx a (by simp)
  omega

theorem chain_le_snoc (l : List Nat) (a b : Nat)
    (h : List.Chain' (· ≤ ·) (l ++ [a])) (hab : a ≤ b) :
    List.Chain' (· ≤ ·) ((l ++ [a]) ++ [b]) := by
  rw [List.chain'_append]
  refine ⟨h, List.chain'_singleton b, ?_⟩
  intro x hx y hy
  simp only [List.head?_cons, Option.mem_def, Option.some.injEq] at hy
  subst hy
  rw [List.getLast?_concat] at hx
  simp only [Option.mem_def, Option.some.injEq] at hx
  subst hx
  exact hab

/-! Preservation of simplicity: adding a fan of edges from one source to
distinct targets that avoid the source and all its existing edges keeps the
edge list simple. -/

theorem sameUndirected_of_lt (e : Nat × Nat) (src t : Nat)
    (h1 : e.1 < src) (h2 : e.2 < src) : sameUndirected e (src, t) = false := by
  simp [sameUndirected]
  omega

theorem findEdge_false_all (g : UnGraph) (a b : Nat) (h : findEdge g a b = false) :
    ∀ e ∈ g.edges, sameUndirected e (a, b) = false := by
  rw [findEdge, List.any_eq_false] at h
  intro e he
  have h2 := h e he
  simp only [Bool.not_eq_true] at h2
  exact h2

theorem simple_edges_append (l : List (Nat × Nat)) (src : Nat) (ts : List Nat)
    (hself : ∀ e ∈ l, e.1 ≠ e.2)
    (hpw : l.Pairwise (fun e f => sameUndirected e f = false))
    (hnodup : ts.Nodup) (hneq : ∀ t ∈ ts, t ≠ src)
    (hold : ∀ t ∈ ts, ∀ e ∈ l, sameUndirected e (src, t) = false) :
    (∀ e ∈ l ++ ts.map (fun t => (src, t)), e.1 ≠ e.2) ∧
    (l ++ ts.map (fun t => (src, t))).Pairwise
      (fun e f => sameUndirected e f = false) := by
  constructor
  · intro e he
    rcases List.mem_append.1 he with he | he
    · exact hself e he
    · rw [List.mem_map] at he
      obtain ⟨t, ht, rfl⟩ := he
      exact fun hc => hneq t ht hc.symm
  · rw [List.pairwise_append]
    refine ⟨hpw, ?_, ?_⟩
    · rw [List.pairwise_map]
      refine (List.Pairwise.imp_of_mem ?_ hnodup)
      intro t1 t2 ht1 ht2 hne
      have h1 : t2 ≠ src := hneq t2 ht2
      simp [sameUndirected]
      omega
    · intro e he f hf
      rw [List.mem_map] at hf
      obtain ⟨t, ht, rfl⟩ := hf
      exact hold t ht e he

/-! Per policy state invariants, preserved by construction, step and update. -/

def ClassicInv (s : BarabasiAlbertClassic) : Prop :=
  isSimple s.graph = true ∧ EdgesWF s.graph ∧
  (∀ x ∈ s.stubs, x < s.graph.nodeCount) ∧ (∀ j, s.picked j = false)

def RAInv (s : BarabasiAlbertRandomAttachement) : Prop :=
  isSimple s.graph = true ∧ EdgesWF s.graph ∧
  s.node_count = s.graph.nodeCount ∧ (∀ j, s.picked j = false)

def NGInv (s : BarabasiAlbertNoGrowth) : Prop :=
  isSimple s.graph = true ∧ EdgesWF s.graph ∧
  (∀ x ∈ s.stubs, x < s.graph.nodeCount) ∧ (∀ j, s.picked j = false) ∧
  s.graph.nodeCount = s.model_config.initial_nodes ∧
  0 < s.model_config.initial_nodes

theorem classic_step_inv {s : BarabasiAlbertClassic} {rng : List Nat} {b : Bool}
    {s1 : BarabasiAlbertClassic} {rr : List Nat}
    (hI : ClassicInv s) (h : s.step rng = some (b, s1, rr)) : ClassicInv s1 := by
  obtain ⟨hsim, hwf, hstubs, hpick⟩ := hI
  obtain ⟨-, -, -, hnodes, ts, hlen, hnd, hmem, hedges, hstubs1, hpick1⟩ :=
    classic_step_spec h
  have hlt : ∀ t ∈ ts, t < s.graph.nodeCount := fun t ht => hstubs t (hmem t ht)
  have hsim0 := (isSimple_iff s.graph).1 hsim
  refine ⟨?_, ?_, ?_, hpick1 hpick⟩
  · rw [isSimple_iff, hedges]
    exact simple_edges_append s.graph.edges s.graph.nodeCount ts hsim0.1 hsim0.2 hnd
      (fun t ht => by have := hlt t ht; omega)
      (fun t ht e he => sameUndirected_of_lt e s.graph.nodeCount t
        (hwf e he).2.1 (hwf e he).2.2)
  · intro e he
    rw [hedges, List.mem_append] at he
    rcases he with he | he
    · have := hwf e he
      omega
    · rw [List.mem_map] at he
      obtain ⟨t, ht, rfl⟩ := he
      have := hlt t ht
      simp only [hnodes]
      refine ⟨?_, by omega, by omega⟩
      simp
      omega
  · intro x hx
    rw [hstubs1, List.mem_append] at hx
    rcases hx with hx | hx
    · have := hstubs x hx
      omega
    · rw [List.mem_flatMap] at hx
      obtain ⟨t, ht, hxt⟩ := hx
      have := hlt t ht
      simp only [List.mem_cons, List.not_mem_nil] at hxt
      rcases hxt with rfl | hxt
      · omega
      · rcases hxt with rfl | hfalse
        · omega
        · exact absurd hfalse (by simp)

theorem ra_step_inv {s : BarabasiAlbertRandomAttachement} {rng : List Nat} {b : Bool}
    {s1 : BarabasiAlbertRandomAttachement} {rr : List Nat}
    (hI : RAInv s) (h : s.step rng = some (b, s1, rr)) : RAInv s1 := by
  obtain ⟨hsim, hwf, hcount, hpick⟩ := hI
  obtain ⟨-, -, -, hnodes, hcnt1, ts, hlen, hnd, hmem, hedges, hpick1⟩ := ra_step_spec h
  have hlt : ∀ t ∈ ts, t < s.graph.nodeCount := fun t ht => hcount ▸ hmem t ht
  have hsim0 := (isSimple_iff s.graph).1 hsim
  refine ⟨?_, ?_, ?_, hpick1 hpick⟩
  · rw [isSimple_iff, hedges]
    exact simple_edges_append s.graph.edges s.graph.nodeCount ts hsim0.1 hsim0.2 hnd
      (fun t ht => by have := hlt t ht; omega)
      (fun t ht e he => sameUndirected_of_lt e s.graph.nodeCount t
        (hwf e he).2.1 (hwf e he).2.2)
  · intro e he
    rw [hedges, List.mem_append] at he
    rcases he with he | he
    · have := hwf e he
      omega
    · rw [List.mem_map] at he
      obtain ⟨t, ht, rfl⟩ := he
      have := hlt t ht
      simp only [hnodes]
      refine ⟨?_, by omega, by omega⟩
      simp
      omega
  · omega

theorem ng_step_inv {s : BarabasiAlbertNoGrowth} {rng : List Nat} {b : Bool}
    {s1 : BarabasiAlbertNoGrowth} {rr : List Nat}
    (hI : NGInv s) (h : s.step rng = some (b, s1, rr)) : NGInv s1 := by
  obtain ⟨hsim, hwf, hstubs, hpick, hn, hpos⟩ := hI
  rcases ng_step_spec h with ⟨-, rfl, -, -⟩ | hsome
  · exact ⟨hsim, hwf, hstubs, hpick, hn, hpos⟩
  · obtain ⟨-, -, hmc, hnodes, -, -, rn, ts, hrn, hlen, hnd, hmem, hedges, hstubs1,
      -, hpick1⟩ := hsome
    have hrn2 : rn < s.graph.nodeCount := by
      rw [hn]
      exact hrn hpos
    have hlt : ∀ t ∈ ts, t < s.graph.nodeCount := fun t ht => hstubs t (hmem t ht).1
    have hsim0 := (isSimple_iff s.graph).1 hsim
    refine ⟨?_, ?_, ?_, hpick1 hpick, ?_, ?_⟩
    · rw [isSimple_iff, hedges]
      exact simple_edges_append s.graph.edges rn ts hsim0.1 hsim0.2 hnd
        (fun t ht => (hmem t ht).2.1)
        (fun t ht e he => findEdge_false_all s.graph rn t (hmem t ht).2.2 e he)
    · intro e he
      rw [hedges, List.mem_append] at he
      rcases he with he | he
      · have := hwf e he
        omega
      · rw [List.mem_map] at he
        obtain ⟨t, ht, rfl⟩ := he
        have := hlt t ht
        simp only [hnodes]
        refine ⟨?_, by omega, by omega⟩
        show rn ≠ t
        exact fun hc => (hmem t ht).2.1 hc.symm
    · intro x hx
      rw [hstubs1, List.mem_append] at hx
      rcases hx with hx | hx
      · have := hstubs x hx
        omega
      · rw [List.mem_flatMap] at hx
        obtain ⟨t, ht, hxt⟩ := hx
        have := hlt t ht
        simp only [List.mem_cons, List.not_mem_nil] at hxt
        rcases hxt with rfl | hxt
        · omega
        · rcases hxt with rfl | hfalse
          · omega
          · exact absurd hfalse (by simp)
    · rw [hnodes, hmc, hn]
    · rw [hmc]
      exact hpos

theorem classic_update_inv (s : BarabasiAlbertClassic) (t : Nat)
    (hI : ClassicInv s) : ClassicInv (s.update t) := hI

theorem ra_update_inv (s : BarabasiAlbertRandomAttachement) (t : Nat)
    (hI : RAInv s) : RAInv (s.update t) := hI

theorem ng_update_inv (s : BarabasiAlbertNoGrowth) (t : Nat)
    (hI : NGInv s) : NGInv (s.update t) := hI

/-! Characterisation of is_complete. -/

theorem is_complete_some_true (g : UnGraph) :
    is_complete g = some true ↔
      (1 ≤ g.nodeCount ∧ edgeCount g = g.nodeCount * (g.nodeCount - 1) / 2) := by
  rw [is_complete, checkedSub]
  by_cases hg : 1 ≤ g.nodeCount
  · rw [if_pos hg]
    simp [hg]
  · rw [if_neg hg]
    simp
    omega

theorem is_complete_some_false (g : UnGraph) :
    is_complete g = some false ↔
      (1 ≤ g.nodeCount ∧ edgeCount g ≠ g.nodeCount * (g.nodeCount - 1) / 2) := by
  rw [is_complete, checkedSub]
  by_cases hg : 1 ≤ g.nodeCount
  · rw [if_pos hg]
    simp [hg]
  · rw [if_neg hg]
    simp
    omega

/-- C10: is_complete performs the usize subtraction node_count - 1, which is
undefined (underflow) exactly on the zero node graph; on every graph with at
least one node it returns true exactly when the edge count equals
nodeCount * (nodeCount - 1) / 2. -/
theorem c10_is_complete_safety :
    (∀ g : UnGraph, g.nodeCount = 0 → is_complete g = none) ∧
    (∀ g : UnGraph, 1 ≤ g.nodeCount →
      is_complete g
        = some (decide (edgeCount g = g.nodeCount * (g.nodeCount - 1) / 2))) := by
  constructor
  · intro g hg
    rw [is_complete, checkedSub, if_neg (by omega)]
  · intro g hg
    rw [is_complete, checkedSub, if_pos (by omega)]

/-- Witness for C10: the zero node graph hits the underflow branch, and the
complete graph on two nodes is recognised as complete. -/
theorem c10_is_complete_safety_witness :
    is_complete { nodeCount := 0, edges := [] } = none ∧
    is_complete { nodeCount := 2, edges := [(0, 1)] } = some true := by
  constructor
  · exact c10_is_complete_safety.1 { nodeCount := 0, edges := [] } rfl
  · have h := c10_is_complete_safety.2 { nodeCount := 2, edges := [(0, 1)] } (by decide)
    rw [h]
    decide

/-- C9: the config validation slip.  ModelConfig::from_args accepts n = 1
although its own assert message demands a number greater than 1 and the clap
validator validate_n rejects anything below 2: the assert condition in
from_args checks n at least 1 only.  The inputs m = 0 and m greater than n
are rejected as the claim states, and n = 0 is rejected, but n = 1 reaches a
ModelConfig without any failure. -/
theorem c9_from_args_accepts_one :
    ModelConfig.from_args
        { n := 1, m := 1, t_max := 5, starting_graph := GraphType.Complete } []
      = some { initial_nodes := 1, edges_increment := 1, end_time := 5,
               starting_graph_type := GraphType.Complete, tracked_timesteps := [] } ∧
    validate_n 1 = none ∧
    ModelConfig.from_args
        { n := 0, m := 1, t_max := 5, starting_graph := GraphType.Complete } []
      = none ∧
    ModelConfig.from_args
        { n := 3, m := 0, t_max := 5, starting_graph := GraphType.Complete } []
      = none ∧
    ModelConfig.from_args
        { n := 3, m := 4, t_max := 5, starting_graph := GraphType.Complete } []
      = none ∧
    BarabasiAlbertClassic.fromModelConfig
        { initial_nodes := 3, edges_increment := 1, end_time := 5,
          starting_graph_type := GraphType.Disconnected, tracked_timesteps := [] }
      = none ∧
    BarabasiAlbertRandomAttachement.fromModelConfig
        { initial_nodes := 3, edges_increment := 1, end_time := 5,
          starting_graph_type := GraphType.Disconnected, tracked_timesteps := [] }
      = none := by
  refine ⟨by decide, by decide, by decide, by decide, by decide, rfl, rfl⟩

/-- C7: evaluation at the failing input.  NoGrowth over the Star seed on
three nodes, m = 1, end_time = 1, tracked arrival times [1]; the draw stream
[1, 3] picks source node 1 and target node 2, the step succeeds and adds the
edge (1, 2), yet the tracked vertex list stays empty: the field
current_time_step is initialised to 0 and never advanced, so the tracking
test compares the tracked times against 0 at every step and arrival time 1
is never registered. -/
theorem c7_tracking_never_fires :
    ((BarabasiAlbertNoGrowth.fromModelConfig
        { initial_nodes := 3, edges_increment := 1, end_time := 1,
          starting_graph_type := GraphType.Star, tracked_timesteps := [1] }).bind
      (fun s0 => (s0.generate [1, 3]).map
        (fun p => (p.2.tracked_vertices, p.1.edges))))
      = some ([], [(0, 1), (0, 2), (1, 2)]) := by
  decide

/-- C6: a NoGrowth step reports termination exactly when the graph is
complete (edge count equal to nodeCount * (nodeCount - 1) / 2), the
terminating branch leaves the whole state and the draw stream untouched, and
generate on a complete graph returns the graph unchanged. -/
theorem c6_ng_step_terminal (s : BarabasiAlbertNoGrowth) (rng : List Nat) :
    (is_complete s.graph = some true → s.step rng = some (false, s, rng)) ∧
    (∀ b s1 rr, s.step rng = some (b, s1, rr) →
      ((b = false) ↔
        edgeCount s.graph = s.graph.nodeCount * (s.graph.nodeCount - 1) / 2) ∧
      (b = false → s1 = s ∧ rr = rng)) ∧
    (is_complete s.graph = some true → s.generate rng = some (s.graph, s)) := by
  have hfalse : is_complete s.graph = some true →
      s.step rng = some (false, s, rng) := by
    intro h
    rw [BarabasiAlbertNoGrowth.step.eq_def, h]
  refine ⟨hfalse, ?_, ?_⟩
  · intro b s1 rr h
    rcases ng_step_spec h with ⟨hb, hs1, hrr, hcom⟩ | hsome
    · subst hb
      have := (is_complete_some_true s.graph).1 hcom
      exact ⟨by simp [this.2], fun _ => ⟨hs1, hrr⟩⟩
    · obtain ⟨hb, hcom, -⟩ := hsome
      subst hb
      have := (is_complete_some_false s.graph).1 hcom
      constructor
      · constructor
        · intro hc
          exact absurd hc (by simp)
        · intro hc
          exact absurd hc this.2
      · intro hc
        exact absurd hc (by simp)
  · intro h
    have hstep := hfalse h
    rw [BarabasiAlbertNoGrowth.generate]
    rcases hrem : s.model_config.end_time with _ | rem
    · rfl
    · show (genLoop BarabasiAlbertNoGrowth.step BarabasiAlbertNoGrowth.update
        s 1 (rem + 1) rng).map (fun p => (p.1.graph, p.1)) = some (s.graph, s)
      rw [genLoop, hstep]
      rfl

/-- Witness for C6 on the complete graph with two nodes: the step is a no op
reporting termination. -/
theorem c6_ng_step_terminal_witness :
    ∃ s : BarabasiAlbertNoGrowth,
      BarabasiAlbertNoGrowth.fromModelConfig
        { initial_nodes := 2, edges_increment := 1, end_time := 1,
          starting_graph_type := GraphType.Complete, tracked_timesteps := [] }
        = some s ∧
      s.step [5] = some (false, s, [5]) ∧
      s.generate [5] = some (s.graph, s) := by
  refine ⟨_, rfl, ?_, ?_⟩
  · exact (c6_ng_step_terminal _ [5]).1 (by decide)
  · exact (c6_ng_step_terminal _ [5]).2.2 (by decide)

/-! Ceiling division characterisation used by the averaging claim. -/

theorem ceil_div_bounds (S k : Nat) (hk : 0 < k) :
    S ≤ k * ((S + k - 1) / k) ∧ k * ((S + k - 1) / k) < S + k := by
  have h1 := Nat.div_add_mod (S + k - 1) k
  have h2 : (S + k - 1) % k < k := Nat.mod_lt _ hk
  generalize hP : k * ((S + k - 1) / k) = P at h1 ⊢
  omega

/-- C4: mean_vectors of k equal length vectors of length L is defined,
returns a vector of length L, and the entry at index i is the ceiling of the
column sum divided by k: the unique c with sum at most k * c and
k * c below sum + k.  On the empty input and on any length mismatch against
the first vector the asserts fire (none), and the documented example holds. -/
theorem c4_mean_vectors (vectors : List (List Nat)) (L : Nat)
    (hne : vectors ≠ []) (hlen : ∀ v ∈ vectors, v.length = L) :
    (∃ w, mean_vectors vectors = some w ∧ w.length = L ∧
      ∀ i, i < L →
        (vectors.map (fun v => v.getD i 0)).sum ≤ vectors.length * w.getD i 0 ∧
        vectors.length * w.getD i 0
          < (vectors.map (fun v => v.getD i 0)).sum + vectors.length) ∧
    mean_vectors [] = none ∧
    (∀ vs : List (List Nat), (∃ v ∈ vs, v.length ≠ (vs.headD []).length) →
      mean_vectors vs = none) ∧
    mean_vectors [[2, 4], [4, 6]] = some [3, 5] := by
  refine ⟨?_, by decide, ?_, by decide⟩
  · obtain ⟨v0, vs, rfl⟩ := List.exists_cons_of_ne_nil hne
    have hL0 : v0.length = L := hlen v0 (by simp)
    have hall : (v0 :: vs).all
        (fun v => v.length == ((v0 :: vs).headD []).length) = true := by
      rw [List.all_eq_true]
      intro v hv
      have := hlen v hv
      simp [this, hL0]
    rw [mean_vectors]
    rw [if_neg (by simp)]
    rw [if_pos hall]
    refine ⟨_, rfl, ?_, ?_⟩
    · simp [hL0]
    · intro i hi
      have hiL : i < ((v0 :: vs).headD []).length := by
        simp [hL0]
        omega
      have hget : ((List.range ((v0 :: vs).headD []).length).map (fun i =>
            (((v0 :: vs).map (fun v => v.getD i 0)).sum + (v0 :: vs).length - 1)
              / (v0 :: vs).length)).getD i 0
          = (((v0 :: vs).map (fun v => v.getD i 0)).sum + (v0 :: vs).length - 1)
              / (v0 :: vs).length := by
        rw [List.getD_eq_getElem _ _ (by simpa using hiL)]
        rw [List.getElem_map, List.getElem_range]
      rw [hget]
      exact ceil_div_bounds (((v0 :: vs).map (fun v => v.getD i 0)).sum)
        ((v0 :: vs).length) (by simp)
  · rintro vs ⟨v, hv, hne2⟩
    have hvs : vs ≠ [] := by
      intro hc
      subst hc
      exact absurd hv (by simp)
    rw [mean_vectors]
    rw [if_neg (by simp [hvs])]
    have hbad : ¬ (vs.all (fun u => u.length == (vs.headD []).length) = true) := by
      intro hall
      rw [List.all_eq_true] at hall
      have := hall v hv
      rw [beq_iff_eq] at this
      exact hne2 this
    rw [if_neg hbad]

/-- Witness for C4 at the documented example. -/
theorem c4_mean_vectors_witness : mean_vectors [[2, 4], [4, 6]] = some [3, 5] :=
  (c4_mean_vectors [[2, 4], [4, 6]] 2 (by decide) (by decide)).2.2.2

/-- C5 counterexample: the Over value produced by simulate with one trial
whose degree sequence is [0] carries vertices_evolution = none, and
get_vertex_evolution on it returns none, the branch the source marks
unreachable: a Simulation in the Over phase on which the vertex evolution
accessor is not total, refuting the claim that both accessors never reach
their panic branch on every value produced by simulate or
simulate_with_tracking. -/
theorem c5_counterexample :
    Simulation.simulate 1 (fun _ => some [0])
      = some { iteration_number := 1, degree_sequence := some [0],
               vertices_evolution := none } ∧
    Simulation.get_vertex_evolution
      { iteration_number := 1, degree_sequence := some [0],
        vertices_evolution := none } = none := by
  exact ⟨rfl, rfl⟩

/-- C5 amended: get_mean_degree_sequence never reaches its unreachable
branch on any Over value produced by simulate or simulate_with_tracking;
get_vertex_evolution never reaches it on values produced by
simulate_with_tracking, but always reaches it on values produced by plain
simulate, which stores None in vertices_evolution. -/
theorem c5_amended_typestate :
    (∀ (k : Nat) (trial : Nat → Option (List Nat)) (sim : SimulationOver),
      Simulation.simulate k trial = some sim →
      (Simulation.get_mean_degree_sequence sim).isSome = true ∧
      Simulation.get_vertex_evolution sim = none) ∧
    (∀ (k : Nat) (trial : Nat → Option (List Nat × (Nat → List Nat)))
        (tracked : List Nat) (sim : SimulationOver),
      Simulation.simulate_with_tracking k trial tracked = some sim →
      (Simulation.get_mean_degree_sequence sim).isSome = true ∧
      (Simulation.get_vertex_evolution sim).isSome = true) := by
  constructor
  · intro k trial sim h
    rw [Simulation.simulate] at h
    split at h
    · exact absurd h (by simp)
    · split at h
      · exact absurd h (by simp)
      · simp only [Option.some.injEq] at h
        subst h
        exact ⟨rfl, rfl⟩
  · intro k trial tracked sim h
    rw [Simulation.simulate_with_tracking] at h
    split at h
    · exact absurd h (by simp)
    · split at h
      · exact absurd h (by simp)
      · split at h
        · exact absurd h (by simp)
        · simp only [Option.some.injEq] at h
          subst h
          exact ⟨rfl, rfl⟩

/-- Witness for C5 amended, on a one trial run of each transition. -/
theorem c5_amended_typestate_witness :
    (Simulation.get_mean_degree_sequence
      { iteration_number := 1, degree_sequence := some [0],
        vertices_evolution := none }).isSome = true ∧
    Simulation.get_vertex_evolution
      { iteration_number := 1, degree_sequence := some [0],
        vertices_evolution := none } = none ∧
    (Simulation.get_vertex_evolution
      { iteration_number := 1, degree_sequence := some [0],
        vertices_evolution := some [] }).isSome = true := by
  refine ⟨(c5_amended_typestate.1 1 (fun _ => some [0]) _ rfl).1,
    (c5_amended_typestate.1 1 (fun _ => some [0]) _ rfl).2, ?_⟩
  exact (c5_amended_typestate.2 1 (fun _ => some ([0], fun _ => [])) [] _ rfl).2

/-- C1: for Classic and RandomAttachment under a valid config with a
connected seed, a completed generate run over end_time steps yields
initial_nodes + end_time nodes and adds exactly edges_increment * end_time
edges to the seed edge count, and step always returns true: neither policy
can terminate early. -/
theorem c1_growth_counts (mc : ModelConfig) (h2 : 2 ≤ mc.initial_nodes)
    (hm1 : 1 ≤ mc.edges_increment) (hmn : mc.edges_increment ≤ mc.initial_nodes) :
    (∀ s0, BarabasiAlbertClassic.fromModelConfig mc = some s0 →
      ∀ rng g s1, s0.generate rng = some (g, s1) →
        g.nodeCount = mc.initial_nodes + mc.end_time ∧
        edgeCount g = edgeCount s0.graph + mc.edges_increment * mc.end_time) ∧
    (∀ s0, BarabasiAlbertRandomAttachement.fromModelConfig mc = some s0 →
      ∀ rng g s1, s0.generate rng = some (g, s1) →
        g.nodeCount = mc.initial_nodes + mc.end_time ∧
        edgeCount g = edgeCount s0.graph + mc.edges_increment * mc.end_time) ∧
    (∀ (s : BarabasiAlbertClassic) rng b s1 rr,
      s.step rng = some (b, s1, rr) → b = true) ∧
    (∀ (s : BarabasiAlbertRandomAttachement) rng b s1 rr,
      s.step rng = some (b, s1, rr) → b = true) := by
  refine ⟨?_, ?_, fun s rng b s1 rr h => (classic_step_spec h).1,
    fun s rng b s1 rr h => (ra_step_spec h).1⟩
  · intro s0 hfrom rng g s1 hgen
    obtain ⟨hmcfg, hN, -, -, -, -, -, -⟩ := classic_from_spec hfrom
    rw [BarabasiAlbertClassic.generate, Option.map_eq_some'] at hgen
    obtain ⟨⟨sf, rrf⟩, hloop, hpair⟩ := hgen
    simp only [Prod.mk.injEq] at hpair
    obtain ⟨hg, hs1⟩ := hpair
    have hstep : ∀ (s : BarabasiAlbertClassic) t rng2 b s2 rr2,
        (s.model_config = mc ∧ 1 ≤ t ∧
          s.graph.nodeCount + 1 = mc.initial_nodes + t ∧
          edgeCount s.graph + mc.edges_increment
            = edgeCount s0.graph + mc.edges_increment * t) →
        s.step rng2 = some (b, s2, rr2) →
        b = true ∧
        ((s2.update t).model_config = mc ∧ 1 ≤ t + 1 ∧
          (s2.update t).graph.nodeCount + 1 = mc.initial_nodes + (t + 1) ∧
          edgeCount (s2.update t).graph + mc.edges_increment
            = edgeCount s0.graph + mc.edges_increment * (t + 1)) := by
      intro s t rng2 b s2 rr2 hI hstep
      obtain ⟨hb, hcfg2, -, hnc, ts, hlen, -, -, hedges, -, -⟩ := classic_step_spec hstep
      subst hb
      have hupd := classic_update_fields s2 t
      refine ⟨rfl, ?_, by omega, ?_, ?_⟩
      · rw [hupd.2.2.2, hcfg2, hI.1]
      · rw [hupd.1]
        omega
      · rw [hupd.1]
        have hE2 : edgeCount s2.graph = edgeCount s.graph + mc.edges_increment := by
          rw [edgeCount, hedges, List.length_append, List.length_map, hlen, hI.1]
          rfl
        have hmul : mc.edges_increment * (t + 1)
            = mc.edges_increment * t + mc.edges_increment := by ring
        have hIe := hI.2.2.2
        omega
    have hinv := genLoop_inv_time
      (fun s t => s.model_config = mc ∧ 1 ≤ t ∧
        s.graph.nodeCount + 1 = mc.initial_nodes + t ∧
        edgeCount s.graph + mc.edges_increment
          = edgeCount s0.graph + mc.edges_increment * t)
      hstep s0.model_config.end_time s0 1 rng sf rrf
      ⟨hmcfg, le_refl 1, by omega, by have := Nat.mul_one mc.edges_increment; omega⟩
      hloop
    rw [hmcfg] at hinv
    obtain ⟨-, -, hnodes, hedges⟩ := hinv
    have hmul := Nat.mul_add mc.edges_increment 1 mc.end_time
    have hone := Nat.mul_one mc.edges_increment
    subst hg
    constructor <;> omega
  · intro s0 hfrom rng g s1 hgen
    obtain ⟨hmcfg, hN, -, -, -, -, -⟩ := ra_from_spec hfrom
    rw [BarabasiAlbertRandomAttachement.generate, Option.map_eq_some'] at hgen
    obtain ⟨⟨sf, rrf⟩, hloop, hpair⟩ := hgen
    simp only [Prod.mk.injEq] at hpair
    obtain ⟨hg, hs1⟩ := hpair
    have hstep : ∀ (s : BarabasiAlbertRandomAttachement) t rng2 b s2 rr2,
        (s.model_config = mc ∧ 1 ≤ t ∧
          s.graph.nodeCount + 1 = mc.initial_nodes + t ∧
          edgeCount s.graph + mc.edges_increment
            = edgeCount s0.graph + mc.edges_increment * t) →
        s.step rng2 = some (b, s2, rr2) →
        b = true ∧
        ((s2.update t).model_config = mc ∧ 1 ≤ t + 1 ∧
          (s2.update t).graph.nodeCount + 1 = mc.initial_nodes + (t + 1) ∧
          edgeCount (s2.update t).graph + mc.edges_increment
            = edgeCount s0.graph + mc.edges_increment * (t + 1)) := by
      intro s t rng2 b s2 rr2 hI hstep
      obtain ⟨hb, hcfg2, -, hnc, -, ts, hlen, -, -, hedges, -⟩ := ra_step_spec hstep
      subst hb
      have hupd := ra_update_fields s2 t
      refine ⟨rfl, ?_, by omega, ?_, ?_⟩
      · rw [hupd.2.2.2, hcfg2, hI.1]
      · rw [hupd.1]
        omega
      · rw [hupd.1]
        have hE2 : edgeCount s2.graph = edgeCount s.graph + mc.edges_increment := by
          rw [edgeCount, hedges, List.length_append, List.length_map, hlen, hI.1]
          rfl
        have hmul : mc.edges_increment * (t + 1)
            = mc.edges_increment * t + mc.edges_increment := by ring
        have hIe := hI.2.2.2
        omega
    have hinv := genLoop_inv_time
      (fun s t => s.model_config = mc ∧ 1 ≤ t ∧
        s.graph.nodeCount + 1 = mc.initial_nodes + t ∧
        edgeCount s.graph + mc.edges_increment
          = edgeCount s0.graph + mc.edges_increment * t)
      hstep s0.model_config.end_time s0 1 rng sf rrf
      ⟨hmcfg, le_refl 1, by omega, by have := Nat.mul_one mc.edges_increment; omega⟩
      hloop
    rw [hmcfg] at hinv
    obtain ⟨-, -, hnodes, hedges⟩ := hinv
    have hmul := Nat.mul_add mc.edges_increment 1 mc.end_time
    have hone := Nat.mul_one mc.edges_increment
    subst hg
    constructor <;> omega

/-- Witness for C1: complete seed on two nodes, m = 1, one step, for both
policies. -/
theorem c1_growth_counts_witness :
    ∃ (s0 : BarabasiAlbertClassic) (g : UnGraph) (s1 : BarabasiAlbertClassic)
      (r0 : BarabasiAlbertRandomAttachement) (gr : UnGraph)
      (r1 : BarabasiAlbertRandomAttachement),
      BarabasiAlbertClassic.fromModelConfig
        { initial_nodes := 2, edges_increment := 1, end_time := 1,
          starting_graph_type := GraphType.Complete, tracked_timesteps := [] }
        = some s0 ∧
      s0.generate [0] = some (g, s1) ∧
      g.nodeCount = 3 ∧ edgeCount g = edgeCount s0.graph + 1 ∧
      BarabasiAlbertRandomAttachement.fromModelConfig
        { initial_nodes := 2, edges_increment := 1, end_time := 1,
          starting_graph_type := GraphType.Complete, tracked_timesteps := [] }
        = some r0 ∧
      r0.generate [1] = some (gr, r1) ∧
      gr.nodeCount = 3 ∧ edgeCount gr = edgeCount r0.graph + 1 := by
  have hc := c1_growth_counts
    { initial_nodes := 2, edges_increment := 1, end_time := 1,
      starting_graph_type := GraphType.Complete, tracked_timesteps := [] }
    (by decide) (by decide) (by decide)
  refine ⟨_, _, _, _, _, _, rfl, rfl, ?_, ?_, rfl, rfl, ?_, ?_⟩
  · exact (hc.1 _ rfl [0] _ _ rfl).1
  · exact (hc.1 _ rfl [0] _ _ rfl).2
  · exact (hc.2.1 _ rfl [1] _ _ rfl).1
  · exact (hc.2.1 _ rfl [1] _ _ rfl).2

theorem length_flatMap_pairs (f : Nat → List Nat) :
    ∀ (l : List Nat), (∀ t ∈ l, (f t).length = 2) →
      (l.flatMap f).length = 2 * l.length := by
  intro l
  induction l with
  | nil =>
    intro h
    simp
  | cons t ts ih =>
    intro h
    rw [List.flatMap_cons, List.length_append, h t (by simp),
      ih (fun u hu => h u (by simp [hu])), List.length_cons]
    omega

/-- C2 counterexample: constructing NoGrowth from a Disconnected seed on two
nodes pushes each node once onto the stub list while the edge set is empty,
so immediately after construction the stub list has length 2 although twice
the edge count is 0, refuting the claimed invariant for that seed. -/
theorem c2_counterexample :
    ((BarabasiAlbertNoGrowth.fromModelConfig
        { initial_nodes := 2, edges_increment := 1, end_time := 1,
          starting_graph_type := GraphType.Disconnected,
          tracked_timesteps := [] }).map
      (fun s => (s.stubs.length, 2 * edgeCount s.graph))) = some (2, 0) ∧
    (2 : Nat) ≠ 0 := by
  exact ⟨rfl, by decide⟩

/-- C2 amended: the stub list length equals twice the edge count after
construction of Classic from any seed it accepts and of NoGrowth from a
Complete or Star seed; for NoGrowth constructed from a Disconnected seed the
stub list additionally holds each of the initial_nodes nodes once, so its
length is twice the edge count plus initial_nodes.  Every true step of
either stub owning policy appends exactly 2 * edges_increment stubs while
adding edges_increment edges, a false NoGrowth step changes nothing, and the
stub list never shrinks, so the stated offset is maintained at every point
of execution. -/
theorem c2_stub_invariant_amended :
    (∀ (mc : ModelConfig) (s0 : BarabasiAlbertClassic),
      BarabasiAlbertClassic.fromModelConfig mc = some s0 →
      s0.stubs.length = 2 * edgeCount s0.graph) ∧
    (∀ (mc : ModelConfig) (s0 : BarabasiAlbertNoGrowth),
      BarabasiAlbertNoGrowth.fromModelConfig mc = some s0 →
      s0.stubs.length = 2 * edgeCount s0.graph
        + (match mc.starting_graph_type with
           | GraphType.Disconnected => mc.initial_nodes
           | _ => 0)) ∧
    (∀ (s : BarabasiAlbertClassic) rng b s1 rr, s.step rng = some (b, s1, rr) →
      s1.stubs.length = s.stubs.length + 2 * s.model_config.edges_increment ∧
      edgeCount s1.graph = edgeCount s.graph + s.model_config.edges_increment ∧
      s.stubs.length ≤ s1.stubs.length) ∧
    (∀ (s : BarabasiAlbertNoGrowth) rng b s1 rr, s.step rng = some (b, s1, rr) →
      (b = true →
        s1.stubs.length = s.stubs.length + 2 * s.model_config.edges_increment ∧
        edgeCount s1.graph = edgeCount s.graph + s.model_config.edges_increment) ∧
      (b = false → s1 = s) ∧
      s.stubs.length ≤ s1.stubs.length) := by
  refine ⟨?_, ?_, ?_, ?_⟩
  · intro mc s0 h
    exact (classic_from_spec h).2.2.2.2.2.2.1
  · intro mc s0 h
    exact (ng_from_spec h).2.2.2.2.2.2.2.2.2.2
  · intro s rng b s1 rr h
    obtain ⟨-, -, -, -, ts, hlen, -, -, hedges, hstubs, -⟩ := classic_step_spec h
    have hflat : (ts.flatMap (fun t => [s.graph.nodeCount, t])).length
        = 2 * ts.length := length_flatMap_pairs _ ts (fun t _ => rfl)
    refine ⟨?_, ?_, ?_⟩
    · rw [hstubs, List.length_append, hflat, hlen]
    · rw [edgeCount, hedges, List.length_append, List.length_map, hlen]
      rfl
    · rw [hstubs, List.length_append]
      omega
  · intro s rng b s1 rr h
    rcases ng_step_spec h with ⟨hb, hs1, -, -⟩ | hsome
    · subst hb
      refine ⟨fun hc => absurd hc (by simp), fun _ => hs1, ?_⟩
      rw [hs1]
    · obtain ⟨hb, -, -, -, -, -, rn, ts, -, hlen, -, -, hedges, hstubs, -, -⟩ := hsome
      subst hb
      have hflat : (ts.flatMap (fun t => [t, rn])).length
          = 2 * ts.length := length_flatMap_pairs _ ts (fun t _ => rfl)
      refine ⟨fun _ => ⟨?_, ?_⟩, fun hc => absurd hc (by simp), ?_⟩
      · rw [hstubs, List.length_append, hflat, hlen]
      · rw [edgeCount, hedges, List.length_append, List.length_map, hlen]
        rfl
      · rw [hstubs, List.length_append]
        omega

/-- The Classic state built from the complete seed on two nodes, used as a
concrete witness state. -/
def c2wClassic : BarabasiAlbertClassic :=
  { model_config :=
      { initial_nodes := 2, edges_increment := 1, end_time := 1,
        starting_graph_type := GraphType.Complete, tracked_timesteps := [] }
    graph := complete_graph 2
    stubs := initStubs (complete_graph 2)
    picked := fun _ => false
    vertices_evolution := fun _ => [] }

/-- The NoGrowth state built from the Disconnected seed on two nodes, used
as a concrete witness state. -/
def c2wNoGrowth : BarabasiAlbertNoGrowth :=
  { model_config :=
      { initial_nodes := 2, edges_increment := 1, end_time := 1,
        starting_graph_type := GraphType.Disconnected, tracked_timesteps := [] }
    graph := { nodeCount := 2, edges := [] }
    stubs := List.range 2
    picked := fun _ => false
    tracked_vertices := []
    vertices_evolution := fun _ => []
    current_time_step := 0 }

/-- Witness for C2 amended: Classic and NoGrowth constructed from concrete
seeds on two nodes, one Classic step. -/
theorem c2_stub_invariant_amended_witness :
    ∃ (b : Bool) (s2 : BarabasiAlbertClassic) (rr : List Nat),
      BarabasiAlbertClassic.fromModelConfig c2wClassic.model_config
        = some c2wClassic ∧
      c2wClassic.stubs.length = 2 * edgeCount c2wClassic.graph ∧
      BarabasiAlbertNoGrowth.fromModelConfig c2wNoGrowth.model_config
        = some c2wNoGrowth ∧
      c2wNoGrowth.stubs.length = 2 * edgeCount c2wNoGrowth.graph + 2 ∧
      c2wClassic.step [0] = some (b, s2, rr) ∧
      s2.stubs.length = c2wClassic.stubs.length + 2 := by
  obtain ⟨b, s2, rr, hstep⟩ :
      ∃ b s2 rr, c2wClassic.step [0] = some (b, s2, rr) := ⟨_, _, _, rfl⟩
  refine ⟨b, s2, rr, rfl,
    c2_stub_invariant_amended.1 c2wClassic.model_config c2wClassic rfl, rfl,
    c2_stub_invariant_amended.2.1 c2wNoGrowth.model_config c2wNoGrowth rfl,
    hstep,
    (c2_stub_invariant_amended.2.2.1 c2wClassic [0] b s2 rr hstep).1⟩

/-- C3: all three policies produce simple graphs: the constructor state
satisfies the policy invariant (which contains simplicity of the graph),
every successful step preserves the invariant, so the graph is simple after
every step, and the graph returned by a completed generate run is simple. -/
theorem c3_simple_graphs :
    (∀ mc s0, BarabasiAlbertClassic.fromModelConfig mc = some s0 →
      ClassicInv s0 ∧
      ∀ rng g s1, s0.generate rng = some (g, s1) → isSimple g = true) ∧
    (∀ (s : BarabasiAlbertClassic) rng b s1 rr, ClassicInv s →
      s.step rng = some (b, s1, rr) → ClassicInv s1 ∧ isSimple s1.graph = true) ∧
    (∀ mc s0, BarabasiAlbertRandomAttachement.fromModelConfig mc = some s0 →
      RAInv s0 ∧
      ∀ rng g s1, s0.generate rng = some (g, s1) → isSimple g = true) ∧
    (∀ (s : BarabasiAlbertRandomAttachement) rng b s1 rr, RAInv s →
      s.step rng = some (b, s1, rr) → RAInv s1 ∧ isSimple s1.graph = true) ∧
    (∀ mc s0, BarabasiAlbertNoGrowth.fromModelConfig mc = some s0 →
      NGInv s0 ∧
      ∀ rng g s1, s0.generate rng = some (g, s1) → isSimple g = true) ∧
    (∀ (s : BarabasiAlbertNoGrowth) rng b s1 rr, NGInv s →
      s.step rng = some (b, s1, rr) → NGInv s1 ∧ isSimple s1.graph = true) := by
  refine ⟨?_, ?_, ?_, ?_, ?_, ?_⟩
  · intro mc s0 hfrom
    obtain ⟨-, -, hsim, hwf, hpick, -, -, hmem⟩ := classic_from_spec hfrom
    have hInv : ClassicInv s0 := ⟨hsim, hwf, hmem, hpick⟩
    refine ⟨hInv, ?_⟩
    intro rng g s1 hgen
    rw [BarabasiAlbertClassic.generate, Option.map_eq_some'] at hgen
    obtain ⟨⟨sf, rrf⟩, hloop, hpair⟩ := hgen
    simp only [Prod.mk.injEq] at hpair
    have hfin := genLoop_inv ClassicInv
      (fun s rng2 b s1' rr hI h => classic_step_inv hI h)
      (fun s t hI => classic_update_inv s t hI)
      s0.model_config.end_time s0 1 rng sf rrf hInv hloop
    rw [← hpair.1]
    exact hfin.1
  · intro s rng b s1 rr hI h
    have := classic_step_inv hI h
    exact ⟨this, this.1⟩
  · intro mc s0 hfrom
    obtain ⟨-, hN, hcnt, hsim, hwf, hpick, -⟩ := ra_from_spec hfrom
    have hInv : RAInv s0 := ⟨hsim, hwf, by rw [hcnt, hN], hpick⟩
    refine ⟨hInv, ?_⟩
    intro rng g s1 hgen
    rw [BarabasiAlbertRandomAttachement.generate, Option.map_eq_some'] at hgen
    obtain ⟨⟨sf, rrf⟩, hloop, hpair⟩ := hgen
    simp only [Prod.mk.injEq] at hpair
    have hfin := genLoop_inv RAInv
      (fun s rng2 b s1' rr hI h => ra_step_inv hI h)
      (fun s t hI => ra_update_inv s t hI)
      s0.model_config.end_time s0 1 rng sf rrf hInv hloop
    rw [← hpair.1]
    exact hfin.1
  · intro s rng b s1 rr hI h
    have := ra_step_inv hI h
    exact ⟨this, this.1⟩
  · intro mc s0 hfrom
    obtain ⟨hmcfg, hpos, hN, hsim, hwf, hpick, -, -, -, hmem, -⟩ := ng_from_spec hfrom
    have hInv : NGInv s0 := ⟨hsim, hwf, hmem, hpick, by rw [hN, hmcfg],
      by rw [hmcfg]; exact hpos⟩
    refine ⟨hInv, ?_⟩
    intro rng g s1 hgen
    rw [BarabasiAlbertNoGrowth.generate, Option.map_eq_some'] at hgen
    obtain ⟨⟨sf, rrf⟩, hloop, hpair⟩ := hgen
    simp only [Prod.mk.injEq] at hpair
    have hfin := genLoop_inv NGInv
      (fun s rng2 b s1' rr hI h => ng_step_inv hI h)
      (fun s t hI => ng_update_inv s t hI)
      s0.model_config.end_time s0 1 rng sf rrf hInv hloop
    rw [← hpair.1]
    exact hfin.1
  · intro s rng b s1 rr hI h
    have := ng_step_inv hI h
    exact ⟨this, this.1⟩

/-- Witness for C3: a completed Classic run from the complete seed on two
nodes produces a simple graph. -/
theorem c3_simple_graphs_witness :
    ∃ g s1, c2wClassic.generate [0] = some (g, s1) ∧ isSimple g = true := by
  refine ⟨_, _, rfl, ?_⟩
  exact (c3_simple_graphs.1 c2wClassic.model_config c2wClassic rfl).2 [0] _ _ rfl

/-- C8: for the Classic policy with arrival time 1 tracked (exactly once in
the tracked list) and any run of generate that completes its end_time steps,
the recorded trajectory for arrival time 1 has exactly end_time entries and
is non decreasing: the node degree entry for index 1 is pushed once after
every step, and degrees never decrease because edges are only added. -/
theorem c8_tracked_trajectory (mc : ModelConfig) (s0 : BarabasiAlbertClassic)
    (hfrom : BarabasiAlbertClassic.fromModelConfig mc = some s0)
    (hT : 1 ≤ mc.end_time) (hcount : mc.tracked_timesteps.count 1 = 1)
    (rng : List Nat) (g : UnGraph) (s1 : BarabasiAlbertClassic)
    (hgen : s0.generate rng = some (g, s1)) :
    (s1.get_vertex_evolution 1).length = mc.end_time ∧
    List.Chain' (· ≤ ·) (s1.get_vertex_evolution 1) := by
  obtain ⟨hmcfg, -, -, -, -, hve0, -, -⟩ := classic_from_spec hfrom
  rw [BarabasiAlbertClassic.generate, Option.map_eq_some'] at hgen
  obtain ⟨⟨sf, rrf⟩, hloop, hpair⟩ := hgen
  simp only [Prod.mk.injEq] at hpair
  have hstep : ∀ (s : BarabasiAlbertClassic) t rng2 b s2 rr2,
      (s.model_config = mc ∧ 1 ≤ t ∧
        (s.vertices_evolution 1).length + 1 = t ∧
        List.Chain' (· ≤ ·) (s.vertices_evolution 1 ++ [degree s.graph 1])) →
      s.step rng2 = some (b, s2, rr2) →
      b = true ∧
      ((s2.update t).model_config = mc ∧ 1 ≤ t + 1 ∧
        ((s2.update t).vertices_evolution 1).length + 1 = t + 1 ∧
        List.Chain' (· ≤ ·)
          ((s2.update t).vertices_evolution 1
            ++ [degree (s2.update t).graph 1])) := by
    intro s t rng2 b s2 rr2 hI hst
    obtain ⟨hmc, ht1, hlen, hch⟩ := hI
    obtain ⟨hb, hcfg2, hve2, -, ts, -, -, -, hedges, -, -⟩ := classic_step_spec hst
    subst hb
    have happly : (s2.update t).vertices_evolution 1
        = s.vertices_evolution 1 ++ [degree s2.graph 1] := by
      show updateVerticesEvolution s2.model_config.tracked_timesteps s2.graph
        s2.vertices_evolution t 1 = _
      rw [updateVE_apply, hve2]
      congr 1
      rw [count_filter_le_time _ _ ht1, hcfg2, hmc, hcount]
      rfl
    have hmono : degree s.graph 1 ≤ degree s2.graph 1 :=
      degree_append_mono s.graph s2.graph _ 1 hedges
    have hch2 : List.Chain' (· ≤ ·)
        (s.vertices_evolution 1 ++ [degree s2.graph 1]) :=
      chain_le_replace_last _ _ _ hch hmono
    refine ⟨rfl, ?_, by omega, ?_, ?_⟩
    · show s2.model_config = mc
      rw [hcfg2, hmc]
    · rw [happly, List.length_append]
      simp only [List.length_cons, List.length_nil]
      omega
    · rw [happly]
      show List.Chain' (· ≤ ·)
        ((s.vertices_evolution 1 ++ [degree s2.graph 1]) ++ [degree s2.graph 1])
      exact chain_le_snoc _ _ _ hch2 (le_refl _)
  have hbase : s0.model_config = mc ∧ 1 ≤ 1 ∧
      (s0.vertices_evolution 1).length + 1 = 1 ∧
      List.Chain' (· ≤ ·) (s0.vertices_evolution 1 ++ [degree s0.graph 1]) := by
    refine ⟨hmcfg, le_refl 1, ?_, ?_⟩
    · rw [hve0]
      rfl
    · rw [hve0]
      exact List.chain'_singleton _
  have hfin := genLoop_inv_time
    (fun s t => s.model_config = mc ∧ 1 ≤ t ∧
      (s.vertices_evolution 1).length + 1 = t ∧
      List.Chain' (· ≤ ·) (s.vertices_evolution 1 ++ [degree s.graph 1]))
    hstep s0.model_config.end_time s0 1 rng sf rrf hbase hloop
  rw [hmcfg] at hfin
  obtain ⟨-, -, hlenf, hchf⟩ := hfin
  rw [← hpair.2]
  constructor
  · show (sf.vertices_evolution 1).length = mc.end_time
    omega
  · show List.Chain' (· ≤ ·) (sf.vertices_evolution 1)
    exact hchf.left_of_append

/-- Witness for C8: Star seed on three nodes, m = 1, one step, tracking
arrival time 1; the recorded trajectory is [2]. -/
theorem c8_tracked_trajectory_witness :
    ∃ (s0 : BarabasiAlbertClassic) (g : UnGraph) (s1 : BarabasiAlbertClassic),
      BarabasiAlbertClassic.fromModelConfig
        { initial_nodes := 3, edges_increment := 1, end_time := 1,
          starting_graph_type := GraphType.Star, tracked_timesteps := [1] }
        = some s0 ∧
      s0.generate [2] = some (g, s1) ∧
      (s1.get_vertex_evolution 1).length = 1 ∧
      List.Chain' (· ≤ ·) (s1.get_vertex_evolution 1) := by
  have h := c8_tracked_trajectory
    { initial_nodes := 3, edges_increment := 1, end_time := 1,
      starting_graph_type := GraphType.Star, tracked_timesteps := [1] }
    _ rfl (by decide) (by decide) [2] _ _ rfl
  exact ⟨_, _, _, rfl, rfl, h.1, h.2⟩
